import Mathlib

/-!
Verification of the eve-translator core pipeline.

This file gives a shallow embedding, in Lean 4, of the pure core of the
repository's message pipeline, translated from the Python sources:

* `src/core/tokenizer.py`  — EVE link tokenizer (`EVELinkTokenizer`),
* `src/core/glossary.py`   — glossary substitution (`EVEGlossary.replace_terms`),
* `src/core/detector.py`   — language detection (`LanguageDetector.detect_language`),
* `src/services/translator.py` — translation orchestration
  (`TranslationService.translate_message`),
* `src/core/tailer.py`     — the log tailer (`FleetLogTailer`),
* `src/services/fleet_detector.py` — group-channel discovery (`FleetDetector`).

Python strings are modelled as `List Char` (one element per code point, as in
Python).  Machine-facing effects are made explicit: the statistical language
detector and the translation provider are modelled as function parameters
(they are external libraries, not repository code), and the file system is
modelled as explicit state passed to the tailer / discovery operations.
Several fuelled recursions (`replaceAllF`, `scanAuxF`, ...) are used so that
every definition is executable by kernel reduction; the fuel is always
`length`-sufficient and fuel-irrelevance lemmas recover the clean equations.
-/

/-- Str is the model of a Python `str`: its list of code points. -/
abbrev Str := List Char

/-- Python `str.isspace` / the whitespace set used by `str.strip()` and
`str.split()` (ASCII whitespace incl. the C0 separators FS..US, NEL, NBSP,
and the Unicode space separators). -/
def isPySpace (c : Char) : Bool :=
  let n := c.toNat
  (9 ≤ n && n ≤ 13) || n = 32 || (28 ≤ n && n ≤ 31) ||
  n = 0x85 || n = 0xA0 || n = 0x1680 || (0x2000 ≤ n && n ≤ 0x200A) ||
  n = 0x2028 || n = 0x2029 || n = 0x202F || n = 0x205F || n = 0x3000

/-- Python `s.strip()`: drop leading and trailing whitespace. -/
def stripWS (s : Str) : Str :=
  ((s.dropWhile isPySpace).reverse.dropWhile isPySpace).reverse

/-- Python `s.split()` (no argument): split on runs of whitespace, no empty
parts. -/
def splitWS : Str → List Str
  | [] => []
  | c :: rest =>
    if isPySpace c then splitWS rest
    else
      match splitWS rest with
      | [] => [[c]]
      | w :: ws =>
        match rest with
        | [] => [[c]]
        | d :: _ => if isPySpace d then [c] :: w :: ws else (c :: w) :: ws

/-- Python `" ".join(ws)`. -/
def joinSpace : List Str → Str
  | [] => []
  | [w] => w
  | w :: ws => w ++ ' ' :: joinSpace ws

/-- Python `" ".join(s.split())` — the whitespace normalization applied at the
end of `EVEGlossary.replace_terms` (src/core/glossary.py line 131). -/
def normalizeWS (s : Str) : Str := joinSpace (splitWS s)

/-- Does `pat` occur (as a contiguous substring) anywhere in `s`?
This is the Python `pat in s` test. -/
def occursIn (pat : Str) : Str → Bool
  | [] => pat.isEmpty
  | s@(_ :: rest) => pat.isPrefixOf s || occursIn pat rest

/-- Does an occurrence of `pat` start strictly inside `a` in the string
`a ++ b`?  (Auxiliary notion used to reason about `str.replace`.) -/
def startsIn (pat : Str) : Str → Str → Bool
  | [], _ => false
  | c :: a, b => pat.isPrefixOf (c :: (a ++ b)) || startsIn pat a b

/-- Fuelled worker for `replaceAll`. -/
def replaceAllF : Nat → Str → Str → Str → Str
  | 0, s, _, _ => s
  | fuel + 1, s, pat, rep =>
    match s with
    | [] => []
    | c :: rest =>
      if pat ≠ [] ∧ pat.isPrefixOf (c :: rest) then
        rep ++ replaceAllF fuel ((c :: rest).drop pat.length) pat rep
      else
        c :: replaceAllF fuel rest pat rep

/-- Python `s.replace(pat, rep)`: replace every (left-to-right,
non-overlapping) occurrence of `pat` in `s` by `rep`.  (For the degenerate
`pat = ""` Python would insert `rep` everywhere; the repository only ever
calls it with nonempty patterns, and this model leaves `s` unchanged then.) -/
def replaceAll (s pat rep : Str) : Str := replaceAllF s.length s pat rep

/-! ## Link tokenizer (src/core/tokenizer.py) -/

/-- Control character test of `EVELinkTokenizer._detect_eve_links`
(tokenizer.py lines 84, 93): code points below 0x20 or in 0x7F..0x9F. -/
def isCtrl (c : Char) : Bool :=
  c.toNat < 0x20 || (0x7F ≤ c.toNat && c.toNat ≤ 0x9F)

/-- Printable-ASCII test of the scanner (tokenizer.py line 111). -/
def isPrintA (c : Char) : Bool :=
  0x20 ≤ c.toNat && c.toNat ≤ 0x7E

/-- The inner scanning loop of `_detect_eve_links` (tokenizer.py lines 89-139),
started at the beginning of the remaining input.  Returns the consumed link
span and the rest of the input.  Branches, in the Python order:
control characters are consumed; a printable ASCII character is consumed only
when immediately followed by a control character, otherwise it ends the span;
any other (non-ASCII, non-control) character is consumed. -/
def spanLink : Str → Str × Str
  | [] => ([], [])
  | c :: rest =>
    if isCtrl c then
      let p := spanLink rest
      (c :: p.1, p.2)
    else if isPrintA c then
      match rest with
      | c2 :: _ =>
        if isCtrl c2 then
          let p := spanLink rest
          (c :: p.1, p.2)
        else ([], c :: rest)
      | [] => ([], c :: rest)
    else
      let p := spanLink rest
      (c :: p.1, p.2)

/-- A segment of the scanned message: plain text, or a detected link span. -/
inductive Seg where
  | text : Str → Seg
  | link : Str → Seg
deriving DecidableEq

/-- Prepend one plain character to a segment list, merging with a leading
text segment (this mirrors the `message[last_idx:start]` slices with which
`tokenize` rebuilds the text between links, tokenizer.py lines 35-50). -/
def consText (c : Char) : List Seg → List Seg
  | Seg.text t :: segs => Seg.text (c :: t) :: segs
  | segs => Seg.text [c] :: segs

/-- Fuelled worker for the outer loop of `_detect_eve_links`
(tokenizer.py lines 78-144): a control character opens a span scanned by
`spanLink`; any other character is plain text. -/
def scanAuxF : Nat → Str → List Seg
  | 0, _ => []
  | _ + 1, [] => []
  | fuel + 1, c :: rest =>
    if isCtrl c then
      let p := spanLink (c :: rest)
      Seg.link p.1 :: scanAuxF fuel p.2
    else
      consText c (scanAuxF fuel rest)

/-- The scanner: the message, split into maximal text runs and link spans. -/
def scanSegs (m : Str) : List Seg := scanAuxF m.length m

/-- Concatenation of the segments' contents. -/
def segsJoin : List Seg → Str
  | [] => []
  | Seg.text t :: segs => t ++ segsJoin segs
  | Seg.link l :: segs => l ++ segsJoin segs

/-- Decimal digit character for `d < 10`. -/
def decChar (d : Nat) : Char := Char.ofNat (48 + d)

/-- Fuelled little-endian decimal digits of `n`. -/
def decDigitsAux : Nat → Nat → List Char
  | 0, _ => []
  | _ + 1, 0 => []
  | fuel + 1, n + 1 => decChar ((n + 1) % 10) :: decDigitsAux fuel ((n + 1) / 10)

/-- Decimal rendering of a natural number, most significant digit first —
the Lean counterpart of Python's `f"{k}"` used to build placeholders. -/
def decDigits (n : Nat) : List Char :=
  if n = 0 then ['0'] else (decDigitsAux n n).reverse

/-- The stem of every placeholder: the characters of `"__EVELINK_"`
(tokenizer.py line 41). -/
def phStem : Str := ['_', '_', 'E', 'V', 'E', 'L', 'I', 'N', 'K', '_']

/-- The `k`-th placeholder `f"__EVELINK_{k}__"` (tokenizer.py line 41). -/
def placeholder (k : Nat) : Str := phStem ++ decDigits k ++ ['_', '_']

/-- The result record of `tokenize` (tokenizer.py `TokenizedMessage`).  The
Python `tokens` dict is modelled as an association list in insertion order
(Python dicts preserve insertion order, and `restore` iterates `.items()`). -/
structure TokenizedMessage where
  original : Str
  cleaned : Str
  tokens : List (Str × Str)
deriving DecidableEq

/-- Rebuild the cleaned text: text segments verbatim, the `i`-th link span
replaced by `placeholder i`, counting from `k` (tokenizer.py lines 32-51). -/
def renderCleaned : Nat → List Seg → Str
  | _, [] => []
  | k, Seg.text t :: segs => t ++ renderCleaned k segs
  | k, Seg.link _ :: segs => placeholder k ++ renderCleaned (k + 1) segs

/-- Collect the placeholder → original-span map, in insertion order
(tokenizer.py lines 40-44). -/
def collectTokens : Nat → List Seg → List (Str × Str)
  | _, [] => []
  | k, Seg.text _ :: segs => collectTokens k segs
  | k, Seg.link l :: segs => (placeholder k, l) :: collectTokens (k + 1) segs

/-- Is the segment a link? -/
def Seg.isLink : Seg → Bool
  | Seg.text _ => false
  | Seg.link _ => true

/-- `EVELinkTokenizer.tokenize` (tokenizer.py lines 21-57): detect links; if
none, return the message unchanged with an empty token map; otherwise replace
the spans left-to-right by counter-based placeholders starting at 1. -/
def tokenize (m : Str) : TokenizedMessage :=
  let segs := scanSegs m
  if segs.all (fun s => !s.isLink) then
    { original := m, cleaned := m, tokens := [] }
  else
    { original := m, cleaned := renderCleaned 1 segs, tokens := collectTokens 1 segs }

/-- `EVELinkTokenizer.restore` (tokenizer.py lines 59-66): successively
`str.replace` each placeholder by its stored span, in token-map order. -/
def restore (m : Str) (tokens : List (Str × Str)) : Str :=
  tokens.foldl (fun acc pr => replaceAll acc pr.1 pr.2) m

/-- Is the head of the segment list not a text segment? -/
def headNotText : List Seg → Bool
  | Seg.text _ :: _ => false
  | _ => true

/-- Is the head of the segment list not a link segment? -/
def headNotLink : List Seg → Bool
  | Seg.link _ :: _ => false
  | _ => true

/-- Well-formedness of a scanned segment list: text runs are nonempty and
maximal (never two adjacent text segments), and no two link spans are
adjacent (a span only ends at a printable character or at end of input). -/
def segsWF : List Seg → Bool
  | [] => true
  | Seg.text t :: rest => !t.isEmpty && headNotText rest && segsWF rest
  | Seg.link _ :: rest => headNotLink rest && segsWF rest

/-! ### Decimal digits and placeholder structure -/

/-- ASCII decimal digit test. -/
def isDigitC (c : Char) : Bool := 48 ≤ c.toNat && c.toNat ≤ 57

/-- Value of a little-endian digit string (left inverse of `decDigitsAux`). -/
def decVal : List Char → Nat
  | [] => 0
  | c :: r => (c.toNat - 48) + 10 * decVal r

/-- The letters of `"EVELINK"`, the fixed alphabetic core of every
placeholder. -/
def linkWord : Str := ['E', 'V', 'E', 'L', 'I', 'N', 'K']

/-- A text tail as produced after a link: nonempty `linkWord`-free text, then
a further placeholder block or the end. -/
def GoodTail (b : Str) : Prop :=
  b = [] ∨ ∃ t c, b = t ++ c ∧ t ≠ [] ∧ occursIn linkWord t = false ∧
    (c = [] ∨ ∃ i d, c = placeholder i ++ d)

/-! ## Glossary substitution (src/core/glossary.py) -/

/-- ASCII alphanumeric, the character class of `^[a-zA-Z0-9]+$`
(glossary.py line 115). -/
def isAlnumA (c : Char) : Bool :=
  (97 ≤ c.toNat && c.toNat ≤ 122) || (65 ≤ c.toNat && c.toNat ≤ 90) ||
  (48 ≤ c.toNat && c.toNat ≤ 57)

/-- Python regex word character (`\w` over ASCII), deciding `\b` boundaries. -/
def isWordChar (c : Char) : Bool := isAlnumA c || c = '_'

/-- Does the term match `^[a-zA-Z0-9]+$` (glossary.py line 115)? -/
def isAlnumTerm (t : Str) : Bool := !t.isEmpty && t.all isAlnumA

/-- Is the position after a character `prev` (none at the start of the
string) a `\b` boundary for a word-character pattern? -/
def boundaryB (prev : Option Char) : Bool :=
  match prev with
  | none => true
  | some p => !isWordChar p

/-- Fuelled worker for `subWB`. -/
def subWBF : Nat → Str → Str → Option Char → Str → Str
  | 0, _, _, _, s => s
  | fuel + 1, term, rep, prev, s =>
    match s with
    | [] => []
    | c :: rest =>
      if boundaryB prev && term.isPrefixOf (c :: rest) &&
          (match (c :: rest).drop term.length with
           | [] => true
           | c2 :: _ => !isWordChar c2) then
        (' ' :: (rep ++ [' '])) ++
          subWBF fuel term rep term.getLast? ((c :: rest).drop term.length)
      else
        c :: subWBF fuel term rep (some c) rest

/-- Python `re.sub(r"\b" + term + r"\b", " " + rep + " ", s)` for an
alphanumeric `term`: replace every word-bounded occurrence, left to right,
without rescanning the replacement text (glossary.py lines 122-124).
(`re.sub` group-reference escapes in the replacement are not modelled; the
glossary's replacement strings are literal text.) -/
def subWB (term rep s : Str) : Str := subWBF s.length term rep none s

/-- Stable insertion for the descending-length order of glossary terms. -/
def sortTermsIns (p : Str × Str) : List (Str × Str) → List (Str × Str)
  | [] => [p]
  | q :: rest =>
    if p.1.length < q.1.length then q :: sortTermsIns p rest
    else p :: q :: rest

/-- Python `sorted(terms.items(), key=lambda x: len(x[0]), reverse=True)`
(glossary.py line 33): stable sort by descending key length. -/
def sortTermsDesc (terms : List (Str × Str)) : List (Str × Str) :=
  terms.foldr sortTermsIns []

/-- One iteration of the replacement loop of `EVEGlossary.replace_terms`
(glossary.py lines 109-128): whitespace-only terms are skipped, alphanumeric
terms are replaced with word boundaries, all other terms by plain substring
replacement; each replacement is padded with one space on both sides. -/
def glossStep (proc : Str) (tr : Str × Str) : Str :=
  if stripWS tr.1 = [] then proc
  else if isAlnumTerm tr.1 then subWB tr.1 tr.2 proc
  else if occursIn tr.1 proc then replaceAll proc tr.1 (' ' :: (tr.2 ++ [' ']))
  else proc

/-- `EVEGlossary.replace_terms` (glossary.py lines 98-131), over the term
table `terms` (the `self.terms` dict in insertion order; `__init__` sorts it
by descending key length into `self.sorted_terms`).  Empty input is returned
unchanged; otherwise all terms are applied and the result is
whitespace-normalized. -/
def replace_terms (terms : List (Str × Str)) (text : Str) : Str :=
  if text = [] then text
  else normalizeWS ((sortTermsDesc terms).foldl glossStep text)

/-! ## Language detector (src/core/detector.py) -/

/-- One character of `cjk_pattern` (detector.py line 29): Han, Hiragana or
Katakana (Hangul is deliberately not part of this range). -/
def isCJKchar (c : Char) : Bool :=
  (0x4e00 ≤ c.toNat && c.toNat ≤ 0x9fff) ||
  (0x3040 ≤ c.toNat && c.toNat ≤ 0x309f) ||
  (0x30a0 ≤ c.toNat && c.toNat ≤ 0x30ff)

/-- `LanguageDetector.is_cjk` (detector.py lines 75-77). -/
def is_cjk (text : Str) : Bool := text.any isCJKchar

/-- `hangul_pattern` (detector.py line 31). -/
def isHangulChar (c : Char) : Bool := 0xac00 ≤ c.toNat && c.toNat ≤ 0xd7af

def hasHangul (text : Str) : Bool := text.any isHangulChar

/-- `kana_pattern` (detector.py line 32). -/
def isKanaChar (c : Char) : Bool := 0x3040 ≤ c.toNat && c.toNat ≤ 0x30ff

def hasKana (text : Str) : Bool := text.any isKanaChar

/-- Python `str.isascii()`. -/
def allAscii (text : Str) : Bool := text.all (fun c => c.toNat < 128)

/-- The CJK refinement block of `detect_language` (detector.py lines 102-117):
override the statistical answer to `'zh'` when it claims a non-CJK code, or
Korean without Hangul, or Japanese without Kana. -/
def refineCJK (text detected : Str) : Str :=
  if is_cjk text then
    if !("zh".toList.isPrefixOf detected) && detected ≠ "ja".toList &&
        detected ≠ "ko".toList then
      "zh".toList
    else if detected = "ko".toList && !hasHangul text then "zh".toList
    else if detected = "ja".toList && !hasKana text then "zh".toList
    else detected
  else detected

/-- `LanguageDetector.detect_language` (detector.py lines 79-117).  The
statistical detector (the external `langdetect` library) is a parameter
`detectF`; `none` models `LangDetectException`. -/
def detect_language (detectF : Str → Option Str) (text : Str) : Str :=
  if stripWS text = [] then "unknown".toList
  else if text.length < 4 && allAscii text then "en".toList
  else
    match detectF text with
    | none => if allAscii text then "en".toList else refineCJK text "unknown".toList
    | some d => refineCJK text d

/-! ## Translation orchestrator (src/services/translator.py) -/

/-- `TranslationService.translate_message` (translator.py lines 122-137).
The active provider is the parameter pair `providerTranslate`/`providerName`
(`provider.translate` / `provider.name`); `none` models a provider that
returned `None` (all three providers catch their exceptions internally and
return `None`, so no exception escapes this boundary — the embedding is a
total function).  Note Python's `if translated:` treats an empty string as a
failure too. -/
def translate_message (providerTranslate : Str → Option Str) (providerName : Str)
    (terms : List (Str × Str)) (message : Str) : Str × Bool × Str :=
  if stripWS message = [] then (message, true, providerName)
  else
    let preprocessed := replace_terms terms message
    match providerTranslate preprocessed with
    | some t => if t = [] then (message, false, providerName)
                else (t, true, providerName)
    | none => (message, false, providerName)

/-! ## Log tailer (src/core/tailer.py)

The file system is explicit: `Option Str` is the current content of the
tailed path (`none` = the file does not exist).  Positions count decoded
code units, the same unit as the modelled `stat().st_size`; an open handle is
assumed to reach the path's current content (no unlink-while-open aliasing),
and `open` succeeds whenever the file exists (the `OSError` fallbacks of
`_open`/`read_new_lines` return empty results and are outside the claims
considered here). -/

structure TailerState where
  pos : Nat
  isOpen : Bool
deriving DecidableEq

/-- `FleetLogTailer._open` (tailer.py lines 17-34). -/
def tailerOpen (file : Option Str) (st : TailerState) : TailerState :=
  match file with
  | none => { st with isOpen := false }
  | some _ => { st with isOpen := true }

/-- `FleetLogTailer.seek_to_end` (tailer.py lines 36-47). -/
def seekToEnd (file : Option Str) (st : TailerState) : TailerState :=
  if st.isOpen then { st with pos := (file.getD []).length }
  else
    match file with
    | some c => { pos := c.length, isOpen := true }
    | none => st

/-- The truncation/rotation check of `read_new_lines` (tailer.py lines
59-67): if the current size is smaller than the remembered cursor, close,
reset the cursor to zero and reopen. -/
def checkRotation (c : Str) (st : TailerState) : TailerState :=
  if c.length < st.pos then { pos := 0, isOpen := true }
  else st

/-- Python `readlines()` on the rest of a text stream: split into lines,
keeping the `'\n'` terminators; a trailing segment without a terminator is
returned as well.  (Universal-newline translation is abstracted: content is
taken as already `'\n'`-terminated.) -/
def splitLinesKeep : Str → List Str
  | [] => []
  | c :: rest =>
    if c = '\n' then ['\n'] :: splitLinesKeep rest
    else
      match splitLinesKeep rest with
      | [] => [[c]]
      | l :: ls => (c :: l) :: ls

/-- Python `line.rstrip('\r\n')` (tailer.py line 77). -/
def stripCRLF (l : Str) : Str :=
  (l.reverse.dropWhile (fun c => c = '\r' || c = '\n')).reverse

/-- `FleetLogTailer.read_new_lines` (tailer.py lines 49-80): missing file ⇒
no lines; otherwise reopen if needed, run the rotation check, then read from
the cursor to the end, remember the new cursor, and return the lines
stripped of their trailing line terminators. -/
def readNewLines (file : Option Str) (st : TailerState) :
    List Str × TailerState :=
  match file with
  | none => ([], st)
  | some c =>
    let st1 := if st.isOpen then st else { st with isOpen := true }
    let st2 := checkRotation c st1
    let newPart := c.drop st2.pos
    ((splitLinesKeep newPart).map stripCRLF,
      { pos := c.length, isOpen := st2.isOpen })

/-- `FleetLogTailer.close` (tailer.py lines 82-85). -/
def closeTailer (st : TailerState) : TailerState := { st with isOpen := false }

/-! ## Group-channel discovery (src/services/fleet_detector.py)

A directory entry carries what the scanner reads of it: the file name, the
modification and file-system creation times (floats in Python, modelled as
integers — only their ordering matters), and the decoded lines of the file.
The filename-timestamp parser (`parse_timestamp_from_filename`, a
`strptime` round trip) is passed as a parameter `parseTs`; none of the
claims depend on the parsed value. -/

structure FleetInfo where
  fleet_id : Str
  listener_name : Str
  log_path : Str
  log_mtime : Int
  created_time : Int
  is_active : Bool
deriving DecidableEq

structure FDirEntry where
  name : Str
  mtime : Int
  ctime : Int
  lines : List Str
deriving DecidableEq

/-- Longest prefix of `s` before the first occurrence of `pat`. -/
def takeBeforeOccur (pat : Str) : Str → Str
  | [] => []
  | s@(c :: rest) => if pat.isPrefixOf s then [] else c :: takeBeforeOccur pat rest

/-- Rest of `s` after the first occurrence of `pat` (empty if none). -/
def afterFirstOccur (pat : Str) : Str → Str
  | [] => []
  | s@(_ :: rest) =>
    if pat.isPrefixOf s then s.drop pat.length else afterFirstOccur pat rest

/-- One line of `parse_listener_from_log` (fleet_detector.py lines 36-39):
Python `line.split('Listener:')[1].strip()` — the stripped text between the
first occurrence of `'Listener:'` and the following occurrence or the end. -/
def parseListenerLine (line : Str) : Option Str :=
  if occursIn ("Listener:".toList) line then
    some (stripWS (takeBeforeOccur ("Listener:".toList)
      (afterFirstOccur ("Listener:".toList) line)))
  else none

def firstListener : List Str → Option Str
  | [] => none
  | line :: rest =>
    match parseListenerLine line with
    | some nm => some nm
    | none => firstListener rest

/-- `FleetDetector.parse_listener_from_log` (fleet_detector.py lines 19-42):
scan the first 15 lines for a `Listener:` header field. -/
def parse_listener_from_log (lines : List Str) : Option Str :=
  firstListener (lines.take 15)

/-- Python dict assignment `result[fleet_id] = info`: replace in place if the
key exists, else append (insertion order preserved). -/
def dictInsert (k : Str) (v : FleetInfo) :
    List (Str × FleetInfo) → List (Str × FleetInfo)
  | [] => [(k, v)]
  | (k', v') :: rest =>
    if k' = k then (k', v) :: rest else (k', v') :: dictInsert k v rest

def dictLookup (k : Str) : List (Str × FleetInfo) → Option FleetInfo
  | [] => none
  | (k', v') :: rest => if k' = k then some v' else dictLookup k rest

/-- One directory entry of the loop of `scan_active_fleets`
(fleet_detector.py lines 84-120): keep `Fleet_*.txt` files whose age is
within the threshold and whose header yields a listener name, keyed by path
(the directory prefix is constant and elided — the file name is the key). -/
def scanStep (parseTs : Str → Option Int) (now threshold : Int)
    (result : List (Str × FleetInfo)) (e : FDirEntry) : List (Str × FleetInfo) :=
  if ("Fleet_".toList.isPrefixOf e.name) && (".txt".toList.isSuffixOf e.name) then
    if now - e.mtime > threshold then result
    else
      match parse_listener_from_log e.lines with
      | none => result
      | some nm =>
        if nm = [] then result
        else
          dictInsert e.name
            { fleet_id := e.name, listener_name := nm, log_path := e.name,
              log_mtime := e.mtime,
              created_time := (parseTs e.name).getD e.ctime,
              is_active := true } result
  else result

/-- `FleetDetector.scan_active_fleets` (fleet_detector.py lines 67-125). -/
def scan_active_fleets (parseTs : Str → Option Int) (now threshold : Int)
    (entries : List FDirEntry) : List (Str × FleetInfo) :=
  entries.foldl (scanStep parseTs now threshold) []

/-- `EVEGlossary._get_hardcoded_fallback` (glossary.py lines 133-287): the
compiled-in zh→en term table, in the source's insertion order. -/
def hardcodedFallback : List (Str × Str) :=
  [("穿梭机".toList, "Shuttle".toList),
   ("蛋".toList, "Pod".toList),
   ("截击".toList, "Interceptor".toList),
   ("隐轰".toList, "Bomber".toList),
   ("战术驱逐".toList, "T3 Des".toList),
   ("佩刀".toList, "Sabre".toList),
   ("巡洋".toList, "Cruiser".toList),
   ("毒蜥".toList, "Gila".toList),
   ("伊什塔".toList, "Ishtar".toList),
   ("YST".toList, "Ishtar".toList),
   ("海狂怒".toList, "VNI".toList),
   ("奥萨斯".toList, "Orthrus".toList),
   ("斯特拉修斯".toList, "Stratios".toList),
   ("阿斯特罗".toList, "Astero".toList),
   ("幼龙".toList, "Drake".toList),
   ("金鹏".toList, "Tengu".toList),
   ("洛基".toList, "Loki".toList),
   ("军团".toList, "Legion".toList),
   ("圣卒".toList, "Proteus".toList),
   ("战列".toList, "Battleship".toList),
   ("灾难".toList, "Apocalypse".toList),
   ("地狱天使".toList, "Abaddon".toList),
   ("末日沙场".toList, "Armageddon".toList),
   ("万王宝座".toList, "Megathron".toList),
   ("万王".toList, "Megathron".toList),
   ("马克瑞".toList, "Machariel".toList),
   ("小马".toList, "Machariel".toList),
   ("噩梦".toList, "Nightmare".toList),
   ("巴格斯".toList, "Barghest".toList),
   ("响尾蛇".toList, "Rattlesnake".toList),
   ("复仇者".toList, "Vindicator".toList),
   ("乌鸦".toList, "Raven".toList),
   ("鹏鲲".toList, "Rokh".toList),
   ("台风".toList, "Typhoon".toList),
   ("多米".toList, "Dominix".toList),
   ("无畏".toList, "Dreadnought".toList),
   ("小航".toList, "Carrier".toList),
   ("大航".toList, "Supercarrier".toList),
   ("泰坦".toList, "Titan".toList),
   ("神使".toList, "Avatar".toList),
   ("夜魔".toList, "Nyx".toList),
   ("归魂".toList, "Hel".toList),
   ("拉格".toList, "Ragnarok".toList),
   ("勒维".toList, "Leviathan".toList),
   ("俄洛巴".toList, "Erebus".toList),
   ("大鲸鱼".toList, "Rorqual".toList),
   ("小希".toList, "Hic".toList),
   ("重拦".toList, "HIC".toList),
   ("轻拦".toList, "Dictor".toList),
   ("诱导".toList, "Cyno".toList),
   ("隐秘诱导".toList, "Covert Cyno".toList),
   ("泡泡".toList, "Bubble".toList),
   ("隐身".toList, "Cloak".toList),
   ("推子".toList, "MWD".toList),
   ("加力".toList, "AB".toList),
   ("反跳".toList, "Scram".toList),
   ("长反".toList, "Point".toList),
   ("网子".toList, "Web".toList),
   ("毁电".toList, "Neut".toList),
   ("吸电".toList, "Nos".toList),
   ("炸弹".toList, "Smartbomb".toList),
   ("末日".toList, "Doomsday".toList),
   ("吉他".toList, "Jita".toList),
   ("底特".toList, "Delve".toList),
   ("高安".toList, "Highsec".toList),
   ("低安".toList, "Lowsec".toList),
   ("00".toList, "Nullsec".toList),
   ("虫洞".toList, "Wormhole".toList),
   ("死亡".toList, "DED/Deadspace".toList),
   ("收".toList, "WTB".toList),
   ("出".toList, "WTS".toList),
   ("抓".toList, "Tackled".toList),
   ("抓到了".toList, "Tackled".toList),
   ("蹲".toList, "Camping".toList),
   ("跳".toList, "Jump".toList),
   ("过门".toList, "Gate Jump".toList),
   ("刷怪".toList, "Ratting".toList),
   ("挖矿".toList, "Mining".toList),
   ("扫描".toList, "Scanning".toList),
   ("收割".toList, "Roaming".toList),
   ("舰队".toList, "Fleet".toList),
   ("指挥".toList, "FC".toList),
   ("本地".toList, "Local".toList),
   ("蓝加".toList, "+1".toList),
   ("救援".toList, "Help/Cyno".toList),
   ("9命".toList, "Help!".toList),
   ("打得不错".toList, "Good Fight".toList),
   ("打得好".toList, "Good Fight".toList),
   ("辛苦了".toList, "GF / Good Job".toList),
   ("88".toList, "Bye".toList),
   ("886".toList, "Bye".toList),
   ("666".toList, "Awesome".toList),
   ("牛逼".toList, "Awesome/Badass".toList),
   ("nb".toList, "Awesome".toList),
   ("GG".toList, "Good Game".toList),
   ("武运昌隆".toList, "Good Luck".toList),
   ("对齐".toList, "Align to".toList),
   ("跃迁".toList, "Warp to".toList),
   ("集火".toList, "Primary".toList),
   ("转火".toList, "Switch Primary".toList),
   ("锁定".toList, "Lock".toList),
   ("停船".toList, "Stop Ship".toList),
   ("接近".toList, "Approach".toList),
   ("环绕".toList, "Orbit".toList),
   ("进站".toList, "Dock".toList),
   ("出站".toList, "Undock".toList),
   ("起跳".toList, "Warping".toList),
   ("朝向".toList, "Aligning".toList),
   ("不要过门".toList, "Do not jump".toList),
   ("红".toList, "Red/Stop".toList),
   ("绿".toList, "Green/Go".toList),
   ("自由土".toList, "Free burn".toList),
   ("土".toList, "Free burn".toList),
   ("舰队长".toList, "FC".toList),
   ("终点".toList, "Destination".toList),
   ("亮诱导".toList, "Lighting Cyno".toList),
   ("四散".toList, "Starburst".toList),
   ("不要广播炸弹伤害".toList, "No Bomb Broadcast".toList),
   ("跟走位".toList, "Anchor up".toList),
   ("大鱼".toList, "Rorqual".toList),
   ("火力".toList, "DPS".toList),
   ("抓人".toList, "Tackle".toList),
   ("保持距离".toList, "Keep at Range".toList),
   ("跟".toList, "Keep at Range/Follow".toList),
   ("跟上".toList, "Keep at Range/Follow".toList),
   ("锚定".toList, "Anchor up".toList),
   ("集合".toList, "Anchor up/Regroup".toList),
   ("安塞克斯".toList, "Ansiblex".toList),
   ("跳桥".toList, "Jump Bridge".toList),
   ("走跳桥".toList, "Take Jump Bridge".toList),
   ("走星门".toList, "Take Gate".toList),
   ("超载".toList, "Overheat".toList),
   ("开起推子".toList, "Prop On".toList),
   ("关推子".toList, "Prop Off".toList),
   ("开推".toList, "Prop On".toList),
   ("关推".toList, "Prop Off".toList),
   ("打泡泡".toList, "Shoot Bubble".toList),
   ("拉泡泡".toList, "Bubble Up".toList),
   ("下泡泡".toList, "Bubble Up".toList),
   ("收泡泡".toList, "Bubble Down".toList),
   ("修".toList, "Repair/Logi".toList),
   ("后勤".toList, "Logistics".toList),
   ("摇修".toList, "Rep me".toList),
   ("给电".toList, "Cap me".toList),
   ("注油".toList, "Cap me".toList),
   ("开火".toList, "Fire".toList),
   ("停火".toList, "Cease Fire".toList),
   ("撒".toList, "Scatter".toList),
   ("解散".toList, "Scatter/Disband".toList)]

/-! ### Detector lemmas -/

/-- A Han-script (CJK ideograph) character: the first range of
`cjk_pattern` (detector.py line 29). -/
def isHan (c : Char) : Bool := 0x4e00 ≤ c.toNat && c.toNat ≤ 0x9fff

/-! ### Discovery lemmas -/

/-- The `FleetInfo` record built by `scan_active_fleets` for a kept entry
(fleet_detector.py lines 109-116). -/
def fleetInfoOf (parseTs : Str → Option Int) (e : FDirEntry) (nm : Str) : FleetInfo :=
  { fleet_id := e.name, listener_name := nm, log_path := e.name,
    log_mtime := e.mtime, created_time := (parseTs e.name).getD e.ctime,
    is_active := true }

theorem replaceAllF_congr : ∀ (f g : Nat) (s pat rep : Str),
    s.length ≤ f → s.length ≤ g → replaceAllF f s pat rep = replaceAllF g s pat rep := by
  intro f
  induction f with
  | zero =>
    intro g s pat rep hf _
    have hs : s = [] := by cases s <;> simp_all
    subst hs
    cases g <;> simp [replaceAllF]
  | succ f ih =>
    intro g s pat rep hf hg
    cases g with
    | zero => cases s <;> simp_all [replaceAllF]
    | succ g =>
      cases s with
      | nil => simp [replaceAllF]
      | cons c rest =>
        simp only [replaceAllF]
        by_cases hpat : pat ≠ [] ∧ pat.isPrefixOf (c :: rest)
        · simp only [if_pos hpat]
          have hlen : ((c :: rest).drop pat.length).length ≤ f := by
            have : 1 ≤ pat.length := by
              cases pat with
              | nil => exact absurd rfl hpat.1
              | cons _ _ => simp
            simp only [List.length_drop]
            omega
          have hlen' : ((c :: rest).drop pat.length).length ≤ g := by
            have : 1 ≤ pat.length := by
              cases pat with
              | nil => exact absurd rfl hpat.1
              | cons _ _ => simp
            simp only [List.length_drop]
            omega
          rw [ih g _ pat rep hlen hlen']
        · simp only [if_neg hpat]
          have hlen : rest.length ≤ f := by simp at hf; omega
          have hlen' : rest.length ≤ g := by simp at hg; omega
          rw [ih g rest pat rep hlen hlen']

/-- Equation: `replaceAll` on the empty string. -/
theorem replaceAll_nil (pat rep : Str) : replaceAll [] pat rep = [] := rfl

/-- Equation: `replaceAll` when `pat` matches at the head. -/
theorem replaceAll_matches (s pat rep : Str) (hne : pat ≠ []) (hp : pat <+: s) :
    replaceAll s pat rep = rep ++ replaceAll (s.drop pat.length) pat rep := by
  cases s with
  | nil =>
    rcases hp with ⟨t, ht⟩
    cases pat <;> simp_all
  | cons c rest =>
    show replaceAllF (rest.length + 1) (c :: rest) pat rep = _
    simp only [replaceAllF]
    rw [if_pos ⟨hne, List.isPrefixOf_iff_prefix.mpr hp⟩]
    congr 1
    have hde : 1 ≤ pat.length := by
      cases pat with
      | nil => exact absurd rfl hne
      | cons _ _ => simp
    apply replaceAllF_congr
    · simp only [List.length_drop, List.length_cons]
      omega
    · simp

/-- Equation: `replaceAll` when `pat` does not match at the head. -/
theorem replaceAll_no_match (c : Char) (s pat rep : Str) (h : ¬ pat <+: (c :: s)) :
    replaceAll (c :: s) pat rep = c :: replaceAll s pat rep := by
  show replaceAllF (s.length + 1) (c :: s) pat rep = _
  simp only [replaceAllF]
  rw [if_neg]
  · rfl
  · rintro ⟨-, hp⟩
    exact h (List.isPrefixOf_iff_prefix.mp hp)

/-- Equation: `replaceAll` when `pat` is empty (degenerate case, never used by
the repository). -/
theorem replaceAll_empty_pat (c : Char) (s rep : Str) :
    replaceAll (c :: s) [] rep = c :: replaceAll s [] rep := by
  show replaceAllF (s.length + 1) (c :: s) [] rep = _
  simp only [replaceAllF]
  rw [if_neg (by simp)]
  rfl

/-- If `pat` occurs nowhere in `s`, `replaceAll` leaves `s` unchanged. -/
theorem replaceAll_of_not_occursIn (s pat rep : Str) (h : occursIn pat s = false) :
    replaceAll s pat rep = s := by
  induction s with
  | nil => rfl
  | cons c rest ih =>
    simp only [occursIn, Bool.or_eq_false_iff] at h
    rw [replaceAll_no_match c rest pat rep
      (fun hp => by simp [List.isPrefixOf_iff_prefix.mpr hp] at h)]
    rw [ih h.2]

/-- If no occurrence of `pat` starts inside `a`, `replaceAll` passes over `a`. -/
theorem replaceAll_append_of_not_startsIn (a b pat rep : Str)
    (h : startsIn pat a b = false) :
    replaceAll (a ++ b) pat rep = a ++ replaceAll b pat rep := by
  induction a with
  | nil => rfl
  | cons c a ih =>
    simp only [startsIn, Bool.or_eq_false_iff] at h
    rw [List.cons_append, replaceAll_no_match c (a ++ b) pat rep
      (fun hp => by simp [List.isPrefixOf_iff_prefix.mpr hp] at h)]
    rw [ih h.2, List.cons_append]

/-- Bridge: `occursIn` decides the Mathlib infix relation. -/
theorem occursIn_iff (pat s : Str) : occursIn pat s = true ↔ pat <:+: s := by
  induction s with
  | nil =>
    simp only [occursIn, List.isEmpty_iff]
    constructor
    · rintro rfl; exact List.infix_rfl
    · intro h; exact List.eq_nil_of_infix_nil h
  | cons c rest ih =>
    simp only [occursIn, Bool.or_eq_true, List.isPrefixOf_iff_prefix, ih,
      List.infix_cons_iff]

theorem occursIn_eq_false (pat s : Str) : occursIn pat s = false ↔ ¬ pat <:+: s := by
  rw [← occursIn_iff]
  simp

/-- An occurrence that starts inside `a` of `a ++ b`: the witnessing suffix. -/
theorem startsIn_iff (pat a b : Str) :
    startsIn pat a b = true ↔ ∃ a₂ : Str, a₂ ≠ [] ∧ a₂ <:+ a ∧ pat <+: (a₂ ++ b) := by
  induction a with
  | nil =>
    simp only [startsIn]
    constructor
    · intro h; cases h
    · rintro ⟨a₂, hne, hsuf, -⟩
      exact absurd (List.suffix_nil.mp hsuf) hne
  | cons c a ih =>
    simp only [startsIn, Bool.or_eq_true, List.isPrefixOf_iff_prefix, ih]
    constructor
    · rintro (h | ⟨a₂, hne, hsuf, hp⟩)
      · exact ⟨c :: a, by simp, List.suffix_rfl, by simpa using h⟩
      · exact ⟨a₂, hne, hsuf.trans (List.suffix_cons c a), hp⟩
    · rintro ⟨a₂, hne, hsuf, hp⟩
      rcases List.suffix_cons_iff.mp hsuf with rfl | hsuf
      · exact Or.inl (by simpa using hp)
      · exact Or.inr ⟨a₂, hne, hsuf, hp⟩

/-- Monotonicity: an occurrence inside a part is an occurrence in the whole. -/
theorem occursIn_of_isInfix {pat u v : Str} (huv : u <:+: v)
    (h : occursIn pat u = true) : occursIn pat v = true := by
  rw [occursIn_iff] at h ⊢
  exact h.trans huv

theorem not_occursIn_of_isInfix {pat u v : Str} (huv : u <:+: v)
    (h : occursIn pat v = false) : occursIn pat u = false := by
  cases hu : occursIn pat u with
  | false => rfl
  | true => rw [occursIn_of_isInfix huv hu] at h; cases h

/-! ### Structural facts about the scanner -/

theorem spanLink_join : ∀ l : Str, (spanLink l).1 ++ (spanLink l).2 = l := by
  intro l
  induction l with
  | nil => rfl
  | cons c rest ih =>
    simp only [spanLink]
    by_cases h1 : isCtrl c
    · simp [h1, ih]
    · by_cases h2 : isPrintA c
      · cases rest with
        | nil => simp [h1, h2]
        | cons c2 r2 =>
          by_cases h3 : isCtrl c2
          · simp [h1, h2, h3, ih]
          · simp [h1, h2, h3]
      · simp [h1, h2, ih]

theorem spanLink_rest_length : ∀ l : Str, (spanLink l).2.length ≤ l.length := by
  intro l
  induction l with
  | nil => simp [spanLink]
  | cons c rest ih =>
    simp only [spanLink]
    by_cases h1 : isCtrl c
    · simp only [h1]
      simp only [if_true]
      calc (spanLink rest).2.length ≤ rest.length := ih
        _ ≤ (c :: rest).length := by simp
    · by_cases h2 : isPrintA c
      · cases rest with
        | nil => simp [h1, h2]
        | cons c2 r2 =>
          by_cases h3 : isCtrl c2
          · simp only [h1, h2, h3]
            simp only [Bool.false_eq_true, if_false, if_true]
            calc (spanLink (c2 :: r2)).2.length ≤ (c2 :: r2).length := ih
              _ ≤ (c :: c2 :: r2).length := by simp
          · simp [h1, h2, h3]
      · simp only [h1, h2]
        simp only [Bool.false_eq_true, if_false]
        calc (spanLink rest).2.length ≤ rest.length := ih
          _ ≤ (c :: rest).length := by simp

theorem spanLink_rest_of_ctrl (c : Char) (rest : Str) (h : isCtrl c = true) :
    (spanLink (c :: rest)).2 = (spanLink rest).2 := by
  simp [spanLink, h]

/-- The rest after a scanned span is empty or starts with a printable,
non-control character (the break condition in tokenizer.py lines 129-131). -/
theorem spanLink_rest_head : ∀ l : Str,
    (spanLink l).2 = [] ∨
      ∃ c r, (spanLink l).2 = c :: r ∧ isCtrl c = false ∧ isPrintA c = true := by
  intro l
  induction l with
  | nil => simp [spanLink]
  | cons c rest ih =>
    simp only [spanLink]
    by_cases h1 : isCtrl c
    · simpa [h1] using ih
    · by_cases h2 : isPrintA c
      · cases rest with
        | nil =>
          refine Or.inr ⟨c, [], ?_⟩
          simp [h1, h2]
        | cons c2 r2 =>
          by_cases h3 : isCtrl c2
          · simpa [h1, h2, h3] using ih
          · refine Or.inr ⟨c, c2 :: r2, ?_⟩
            simp [h1, h2, h3]
      · have h2' : isPrintA c = false := by simpa using h2
        have h1' : isCtrl c = false := by simpa using h1
        simpa [h1', h2'] using ih

theorem scanAuxF_congr : ∀ (f g : Nat) (m : Str),
    m.length ≤ f → m.length ≤ g → scanAuxF f m = scanAuxF g m := by
  intro f
  induction f with
  | zero =>
    intro g m hf _
    have hm : m = [] := by cases m <;> simp_all
    subst hm
    cases g <;> simp [scanAuxF]
  | succ f ih =>
    intro g m hf hg
    cases g with
    | zero => cases m <;> simp_all [scanAuxF]
    | succ g =>
      cases m with
      | nil => simp [scanAuxF]
      | cons c rest =>
        simp only [scanAuxF]
        by_cases h1 : isCtrl c
        · simp only [h1, if_true]
          have hb : (spanLink (c :: rest)).2.length ≤ rest.length := by
            rw [spanLink_rest_of_ctrl c rest h1]
            exact spanLink_rest_length rest
          simp only [List.length_cons] at hf hg
          rw [ih g _ (by omega) (by omega)]
        · simp only [h1]
          simp only [Bool.false_eq_true, if_false]
          simp only [List.length_cons] at hf hg
          rw [ih g rest (by omega) (by omega)]

theorem scanSegs_nil : scanSegs [] = [] := rfl

theorem scanSegs_ctrl (c : Char) (rest : Str) (h : isCtrl c = true) :
    scanSegs (c :: rest) =
      Seg.link (spanLink (c :: rest)).1 :: scanSegs (spanLink (c :: rest)).2 := by
  show scanAuxF (rest.length + 1) (c :: rest) = _
  simp only [scanAuxF, h, if_true]
  congr 1
  apply scanAuxF_congr
  · rw [spanLink_rest_of_ctrl c rest h]
    exact spanLink_rest_length rest
  · simp

theorem scanSegs_plain (c : Char) (rest : Str) (h : isCtrl c = false) :
    scanSegs (c :: rest) = consText c (scanSegs rest) := by
  show scanAuxF (rest.length + 1) (c :: rest) = _
  simp only [scanAuxF, h]
  simp only [Bool.false_eq_true, if_false]
  rfl

theorem segsJoin_consText (c : Char) (segs : List Seg) :
    segsJoin (consText c segs) = c :: segsJoin segs := by
  cases segs with
  | nil => rfl
  | cons s rest => cases s <;> simp [consText, segsJoin]

/-- The scanner partitions the message: the segments concatenate back to it.
(This is what makes the `message[last_idx:start]` reconstruction in
`tokenize` equivalent to keeping the text runs.) -/
theorem scanSegs_join (m : Str) : segsJoin (scanSegs m) = m := by
  have key : ∀ (n : Nat) (l : Str), l.length ≤ n → segsJoin (scanSegs l) = l := by
    intro n
    induction n with
    | zero =>
      intro l hl
      have : l = [] := by cases l <;> simp_all
      subst this
      rfl
    | succ n ih =>
      intro l hl
      cases l with
      | nil => rfl
      | cons c rest =>
        by_cases h1 : isCtrl c
        · rw [scanSegs_ctrl c rest h1]
          simp only [segsJoin]
          have hb : (spanLink (c :: rest)).2.length ≤ n := by
            rw [spanLink_rest_of_ctrl c rest h1]
            have := spanLink_rest_length rest
            simp only [List.length_cons] at hl
            omega
          rw [ih _ hb, spanLink_join]
        · have h1' : isCtrl c = false := by simpa using h1
          rw [scanSegs_plain c rest h1', segsJoin_consText]
          simp only [List.length_cons] at hl
          rw [ih rest (by omega)]
  exact key m.length m le_rfl

theorem headNotLink_consText (c : Char) (segs : List Seg) :
    headNotLink (consText c segs) = true := by
  cases segs with
  | nil => rfl
  | cons s rest => cases s <;> simp [consText, headNotLink]

theorem segsWF_consText (c : Char) (segs : List Seg) (h : segsWF segs = true) :
    segsWF (consText c segs) = true := by
  cases segs with
  | nil => simp [consText, segsWF, headNotText]
  | cons s rest =>
    cases s with
    | text t =>
      simp only [consText, segsWF] at h ⊢
      simp_all
    | link l =>
      simp only [consText, segsWF, headNotText] at h ⊢
      simp_all

theorem scanSegs_wf (m : Str) : segsWF (scanSegs m) = true := by
  have key : ∀ (n : Nat) (l : Str), l.length ≤ n → segsWF (scanSegs l) = true := by
    intro n
    induction n with
    | zero =>
      intro l hl
      have : l = [] := by cases l <;> simp_all
      subst this
      rfl
    | succ n ih =>
      intro l hl
      cases l with
      | nil => rfl
      | cons c rest =>
        by_cases h1 : isCtrl c
        · rw [scanSegs_ctrl c rest h1]
          have hb : (spanLink (c :: rest)).2.length ≤ n := by
            rw [spanLink_rest_of_ctrl c rest h1]
            have := spanLink_rest_length rest
            simp only [List.length_cons] at hl
            omega
          simp only [segsWF, Bool.and_eq_true]
          refine ⟨?_, ih _ hb⟩
          rcases spanLink_rest_head (c :: rest) with hnil | ⟨c2, r2, heq, hc2, -⟩
          · rw [hnil, scanSegs_nil]; rfl
          · rw [heq, scanSegs_plain c2 r2 hc2]
            exact headNotLink_consText c2 (scanSegs r2)
        · have h1' : isCtrl c = false := by simpa using h1
          rw [scanSegs_plain c rest h1']
          simp only [List.length_cons] at hl
          exact segsWF_consText c (scanSegs rest) (ih rest (by omega))
  exact key m.length m le_rfl

theorem decChar_toNat : ∀ d : Nat, d < 10 → (decChar d).toNat = 48 + d := by decide

theorem decChar_digit : ∀ d : Nat, d < 10 → isDigitC (decChar d) = true := by decide

theorem decDigitsAux_val : ∀ (f n : Nat), n ≤ f → decVal (decDigitsAux f n) = n := by
  intro f
  induction f with
  | zero =>
    intro n h
    have : n = 0 := by omega
    subst this
    rfl
  | succ f ih =>
    intro n h
    cases n with
    | zero => rfl
    | succ m =>
      simp only [decDigitsAux, decVal]
      rw [decChar_toNat _ (Nat.mod_lt _ (by omega))]
      rw [ih ((m + 1) / 10) (by omega)]
      omega

theorem decDigitsAux_digits : ∀ (f n : Nat) (c : Char),
    c ∈ decDigitsAux f n → isDigitC c = true := by
  intro f
  induction f with
  | zero => intro n c hc; cases hc
  | succ f ih =>
    intro n c hc
    cases n with
    | zero => cases hc
    | succ m =>
      simp only [decDigitsAux, List.mem_cons] at hc
      rcases hc with rfl | hc
      · exact decChar_digit _ (Nat.mod_lt _ (by omega))
      · exact ih _ c hc

theorem decDigits_ne_nil (n : Nat) : decDigits n ≠ [] := by
  cases n with
  | zero => simp [decDigits]
  | succ m =>
    simp only [decDigits, if_neg (Nat.succ_ne_zero m), ne_eq,
      List.reverse_eq_nil_iff]
    simp [decDigitsAux]

theorem decDigits_digits (n : Nat) (c : Char) (hc : c ∈ decDigits n) :
    isDigitC c = true := by
  cases n with
  | zero =>
    simp [decDigits] at hc
    subst hc
    decide
  | succ m =>
    simp only [decDigits, if_neg (Nat.succ_ne_zero m), List.mem_reverse] at hc
    exact decDigitsAux_digits _ _ c hc

theorem decDigits_inj {m n : Nat} (h : decDigits m = decDigits n) : m = n := by
  cases m with
  | zero =>
    cases n with
    | zero => rfl
    | succ n' =>
      exfalso
      simp only [decDigits, if_pos rfl, if_neg (Nat.succ_ne_zero n')] at h
      have hv := decDigitsAux_val (n' + 1) (n' + 1) le_rfl
      have : decDigitsAux (n' + 1) (n' + 1) = ['0'] := by
        have := congrArg List.reverse h
        simpa using this.symm
      rw [this] at hv
      simp [decVal] at hv
  | succ m' =>
    cases n with
    | zero =>
      exfalso
      simp only [decDigits, if_pos rfl, if_neg (Nat.succ_ne_zero m')] at h
      have hv := decDigitsAux_val (m' + 1) (m' + 1) le_rfl
      have : decDigitsAux (m' + 1) (m' + 1) = ['0'] := by
        have := congrArg List.reverse h
        simpa using this
      rw [this] at hv
      simp [decVal] at hv
    | succ n' =>
      simp only [decDigits, if_neg (Nat.succ_ne_zero m'), if_neg (Nat.succ_ne_zero n')] at h
      have h2 : decDigitsAux (m' + 1) (m' + 1) = decDigitsAux (n' + 1) (n' + 1) :=
        List.reverse_injective h
      have hm := decDigitsAux_val (m' + 1) (m' + 1) le_rfl
      have hn := decDigitsAux_val (n' + 1) (n' + 1) le_rfl
      rw [h2] at hm
      omega

/-- Digits are not underscores. -/
theorem digit_ne_us {c : Char} (h : isDigitC c = true) : c ≠ '_' := by
  intro he
  subst he
  exact absurd h (by decide)

theorem decDigits_head (k : Nat) :
    ∃ hd tl, decDigits k = hd :: tl ∧ isDigitC hd = true := by
  cases h : decDigits k with
  | nil => exact absurd h (decDigits_ne_nil k)
  | cons hd tl =>
    exact ⟨hd, tl, rfl, decDigits_digits k hd (by rw [h]; exact List.mem_cons_self hd tl)⟩

theorem ph_cons (k : Nat) :
    placeholder k =
      '_' :: '_' :: 'E' :: 'V' :: 'E' :: 'L' :: 'I' :: 'N' :: 'K' :: '_' ::
        (decDigits k ++ ['_', '_']) := by
  simp [placeholder, phStem]

theorem ph_stem_word (k : Nat) :
    placeholder k = ('_' :: '_' :: linkWord) ++ ('_' :: (decDigits k ++ ['_', '_'])) := by
  rw [ph_cons]
  simp [linkWord]

theorem ph_ne_nil (k : Nat) : placeholder k ≠ [] := by
  rw [ph_cons]
  simp

theorem ph_length (k : Nat) : 13 ≤ (placeholder k).length := by
  rw [ph_cons]
  rcases decDigits_head k with ⟨hd, tl, heq, -⟩
  simp [heq]

theorem linkWord_infix_phStem : linkWord <:+: phStem :=
  ⟨['_', '_'], ['_'], rfl⟩

/-! ### Prefix and suffix toolkit -/

theorem pref_of_pref_append {p u v : Str} (h : p <+: u ++ v)
    (hle : p.length ≤ u.length) : p <+: u := by
  have h1 : p = (u ++ v).take p.length := List.prefix_iff_eq_take.mp h
  rw [List.take_append_of_le_length hle] at h1
  rw [h1]
  exact List.take_prefix _ _

theorem take_drop_of_append_pref {p u v : Str} (h : p <+: u ++ v)
    (hle : u.length ≤ p.length) : u = p.take u.length ∧ p.drop u.length <+: v := by
  rcases h with ⟨t, ht⟩
  constructor
  · have h1 : (p ++ t).take u.length = (u ++ v).take u.length := by rw [ht]
    rw [List.take_append_of_le_length hle, List.take_left] at h1
    exact h1.symm
  · have h1 : (p ++ t).drop u.length = (u ++ v).drop u.length := by rw [ht]
    rw [List.drop_append_of_le_length hle, List.drop_left] at h1
    exact ⟨t, h1⟩

theorem suffix_append_cases {α : Type} {a₂ u v : List α} (h : a₂ <:+ u ++ v) :
    a₂ <:+ v ∨ ∃ u₂, u₂ <:+ u ∧ a₂ = u₂ ++ v := by
  rcases h with ⟨w, hw⟩
  by_cases hle : u.length ≤ w.length
  · left
    have h1 : a₂ = (u ++ v).drop w.length := by
      rw [← hw, List.drop_left]
    rw [List.drop_append_eq_append_drop, List.drop_eq_nil_of_le hle,
      List.nil_append] at h1
    rw [h1]
    exact List.drop_suffix _ _
  · right
    refine ⟨u.drop w.length, List.drop_suffix _ _, ?_⟩
    have h1 : a₂ = (u ++ v).drop w.length := by
      rw [← hw, List.drop_left]
    rw [List.drop_append_eq_append_drop, Nat.sub_eq_zero_of_le (by omega),
      List.drop_zero] at h1
    exact h1

/-! ### Where placeholders can and cannot occur -/

theorem pref_head1 {x y : Char} {xs ys : Str} (h : (x :: xs) <+: (y :: ys)) :
    x = y :=
  (List.cons_prefix_cons.mp h).1

theorem pref_head2 {x1 x2 y1 y2 : Char} {xs ys : Str}
    (h : (x1 :: x2 :: xs) <+: (y1 :: y2 :: ys)) : x1 = y1 ∧ x2 = y2 := by
  obtain ⟨h1, h2⟩ := List.cons_prefix_cons.mp h
  exact ⟨h1, (List.cons_prefix_cons.mp h2).1⟩

theorem pref_take_pref {α : Type} {p q : List α} (h : p <+: q) (n : Nat) :
    p.take n <+: q.take n := by
  rcases h with ⟨t, rfl⟩
  rw [List.take_append_eq_append_take]
  exact List.prefix_append _ _

/-- Splitting a placeholder after its first two underscores. -/
theorem ph_drop2 (k : Nat) :
    (placeholder k).drop 2 = linkWord ++ ('_' :: (decDigits k ++ ['_', '_'])) := by
  rw [ph_stem_word]
  rfl

/-- The pattern `linkWord ++ zt` cannot be a prefix of `t ++ c` when `t` is
`linkWord`-free and `c` is empty or placeholder-led. -/
theorem no_linkWord_tail (zt t c : Str)
    (ht : occursIn linkWord t = false)
    (hc : c = [] ∨ ∃ i d, c = placeholder i ++ d) :
    ¬ ((linkWord ++ zt) <+: t ++ c) := by
  intro hp
  by_cases hlen : 7 ≤ t.length
  · -- then linkWord is a prefix of t, contradicting linkWord-freeness of t
    have hlw : linkWord <+: t := by
      by_cases h2 : (linkWord ++ zt).length ≤ t.length
      · exact (List.prefix_append linkWord zt).trans (pref_of_pref_append hp h2)
      · have h3 := (take_drop_of_append_pref hp (by omega)).1
        have h4 : (linkWord ++ zt).take t.length =
            linkWord ++ zt.take (t.length - 7) := by
          rw [List.take_append_eq_append_take,
            List.take_of_length_le (by simp [linkWord]; omega)]
          have h7 : linkWord.length = 7 := by simp [linkWord]
          rw [h7]
        rw [h4] at h3
        exact ⟨zt.take (t.length - 7), h3.symm⟩
    rw [occursIn_eq_false] at ht
    exact ht hlw.isInfix
  · -- t ends inside linkWord; the pattern's next character is a letter,
    -- but `c` is empty or starts with an underscore
    have hle : t.length ≤ (linkWord ++ zt).length := by
      simp only [List.length_append]
      have : linkWord.length = 7 := by simp [linkWord]
      omega
    obtain ⟨-, hdrop⟩ := take_drop_of_append_pref hp hle
    rw [List.drop_append_of_le_length (by simp [linkWord]; omega)] at hdrop
    have hne : linkWord.drop t.length ≠ [] := by
      intro hnil
      have := congrArg List.length hnil
      simp [linkWord] at this
      omega
    cases hL : linkWord.drop t.length with
    | nil => exact hne hL
    | cons hd tl =>
      have hmem : hd ∈ linkWord := by
        have h5 : hd ∈ linkWord.drop t.length := by
          rw [hL]; exact List.mem_cons_self hd tl
        exact (List.drop_subset _ _) h5
      have hforall : ∀ c ∈ linkWord, c ≠ '_' := by decide
      rw [hL] at hdrop
      rcases hc with rfl | ⟨i, d, rfl⟩
      · exact absurd (List.prefix_nil.mp hdrop) (by simp)
      · rw [ph_cons i] at hdrop
        simp only [List.cons_append] at hdrop
        exact hforall hd hmem (pref_head1 hdrop)

/-- A placeholder cannot match right after the two underscores closing an
earlier placeholder (the tail that follows is text-led or empty). -/
theorem no_ph_after_two (k : Nat) (b : Str) (hb : GoodTail b) :
    ¬ (placeholder k <+: '_' :: '_' :: b) := by
  intro hp
  have hp' : placeholder k <+: ['_', '_'] ++ b := by simpa using hp
  have hd2 : (placeholder k).drop 2 <+: b := by
    have h2 := (take_drop_of_append_pref hp' (by have := ph_length k; simp; omega)).2
    simpa using h2
  rw [ph_drop2] at hd2
  rcases hb with rfl | ⟨t, c, rfl, htne, htf, hc⟩
  · have := List.prefix_nil.mp hd2
    simp [linkWord] at this
  · exact no_linkWord_tail _ t c htf hc hd2

/-- A placeholder cannot match right after the last underscore of an earlier
placeholder either. -/
theorem no_ph_after_one (k : Nat) (b : Str) (hb : GoodTail b) :
    ¬ (placeholder k <+: '_' :: b) := by
  intro hp
  have hp' : placeholder k <+: ['_'] ++ b := by simpa using hp
  have hd1 : (placeholder k).drop 1 <+: b := by
    have h2 := (take_drop_of_append_pref hp' (by have := ph_length k; simp; omega)).2
    simpa using h2
  have he : (placeholder k).drop 1 =
      '_' :: (linkWord ++ ('_' :: (decDigits k ++ ['_', '_']))) := by
    rw [ph_stem_word]
    rfl
  rw [he] at hd1
  rcases hb with rfl | ⟨t, c, rfl, htne, htf, hc⟩
  · have := List.prefix_nil.mp hd1
    simp at this
  · cases t with
    | nil => exact htne rfl
    | cons t0 t' =>
      rw [List.cons_append] at hd1
      have h2 := (List.cons_prefix_cons.mp hd1).2
      have htf' : occursIn linkWord t' = false :=
        not_occursIn_of_isInfix (List.suffix_cons t0 t').isInfix htf
      exact no_linkWord_tail _ t' c htf' hc h2

/-- Two digit strings both closed by a double underscore match as prefixes
only if they are equal. -/
theorem digits_us_pref : ∀ (d1 d2 b' : Str),
    (∀ c ∈ d1, isDigitC c = true) → (∀ c ∈ d2, isDigitC c = true) →
    (d1 ++ ['_', '_']) <+: ((d2 ++ ['_', '_']) ++ b') → d1 = d2 := by
  intro d1
  induction d1 with
  | nil =>
    intro d2 b' _ h2 hp
    cases d2 with
    | nil => rfl
    | cons c2 t2 =>
      exfalso
      simp only [List.nil_append, List.cons_append] at hp
      exact digit_ne_us (h2 c2 (List.mem_cons_self _ _)) (pref_head1 hp).symm
  | cons c1 t1 ih =>
    intro d2 b' h1 h2 hp
    cases d2 with
    | nil =>
      exfalso
      simp only [List.nil_append, List.cons_append] at hp
      exact digit_ne_us (h1 c1 (List.mem_cons_self _ _)) (pref_head1 hp)
    | cons c2 t2 =>
      simp only [List.cons_append] at hp
      obtain ⟨heq, hp2⟩ := List.cons_prefix_cons.mp hp
      subst heq
      rw [ih t2 b' (fun c hc => h1 c (List.mem_cons_of_mem _ hc))
        (fun c hc => h2 c (List.mem_cons_of_mem _ hc)) hp2]

/-- Distinct placeholders never match at the same position. -/
theorem ph_not_pref_ph (k j : Nat) (hkj : k ≠ j) (b : Str) :
    ¬ (placeholder k <+: placeholder j ++ b) := by
  intro hp
  rw [ph_stem_word k, ph_stem_word j, List.append_assoc,
    List.prefix_append_right_inj, List.cons_append] at hp
  obtain ⟨-, hp2⟩ := List.cons_prefix_cons.mp hp
  exact hkj (decDigits_inj (digits_us_pref _ _ _
    (fun c hc => decDigits_digits k c hc) (fun c hc => decDigits_digits j c hc) hp2))

theorem bool_eq_true_of_ne_false {b : Bool} (h : ¬ b = false) : b = true := by
  cases b with
  | false => exact absurd rfl h
  | true => rfl

/-- No occurrence of a placeholder can start inside a `linkWord`-free string
`a` when what follows is empty or placeholder-led. -/
theorem noStart_free_ph (a b : Str) (k : Nat)
    (ha : occursIn linkWord a = false)
    (hb : b = [] ∨ ∃ j c, b = placeholder j ++ c) :
    startsIn (placeholder k) a b = false := by
  by_contra hcon
  obtain ⟨a₂, hne, hsuf, hp⟩ := (startsIn_iff _ _ _).mp (bool_eq_true_of_ne_false hcon)
  by_cases hm : 10 ≤ a₂.length
  · have h10 : (placeholder k).take 10 = phStem := by
      have hph : placeholder k = phStem ++ (decDigits k ++ ['_', '_']) := by
        simp [placeholder]
      rw [hph, List.take_left' (by simp [phStem])]
    have htk := pref_take_pref hp 10
    rw [h10, List.take_append_of_le_length hm] at htk
    have hinf : linkWord <:+: a := by
      have h1 : linkWord <:+: a₂.take 10 := linkWord_infix_phStem.trans htk.isInfix
      have h2 : a₂.take 10 <:+: a₂ := (List.take_prefix _ _).isInfix
      exact (h1.trans h2).trans hsuf.isInfix
    rw [occursIn_eq_false] at ha
    exact ha hinf
  · have hle : a₂.length ≤ (placeholder k).length := by
      have := ph_length k
      omega
    obtain ⟨-, hdrop⟩ := take_drop_of_append_pref hp hle
    rcases hb with rfl | ⟨j, c, rfl⟩
    · have h0 := List.prefix_nil.mp hdrop
      have hlen := congrArg List.length h0
      have := ph_length k
      simp at hlen
      omega
    · have h1 : 1 ≤ a₂.length := by
        cases a₂ with
        | nil => exact absurd rfl hne
        | cons _ _ => simp
      have h9 : a₂.length ≤ 9 := by omega
      generalize hgen : a₂.length = m at hdrop h1 h9
      interval_cases m
      · have e : (placeholder k).drop 1 =
            '_' :: 'E' :: 'V' :: 'E' :: 'L' :: 'I' :: 'N' :: 'K' :: '_' ::
              (decDigits k ++ ['_', '_']) := by
          rw [ph_cons]
          rfl
        rw [e, ph_cons j] at hdrop
        simp only [List.cons_append] at hdrop
        exact absurd (pref_head2 hdrop).2 (by decide)
      · have e : (placeholder k).drop 2 =
            'E' :: 'V' :: 'E' :: 'L' :: 'I' :: 'N' :: 'K' :: '_' ::
              (decDigits k ++ ['_', '_']) := by
          rw [ph_cons]
          rfl
        rw [e, ph_cons j] at hdrop
        simp only [List.cons_append] at hdrop
        exact absurd (pref_head1 hdrop) (by decide)
      · have e : (placeholder k).drop 3 =
            'V' :: 'E' :: 'L' :: 'I' :: 'N' :: 'K' :: '_' ::
              (decDigits k ++ ['_', '_']) := by
          rw [ph_cons]
          rfl
        rw [e, ph_cons j] at hdrop
        simp only [List.cons_append] at hdrop
        exact absurd (pref_head1 hdrop) (by decide)
      · have e : (placeholder k).drop 4 =
            'E' :: 'L' :: 'I' :: 'N' :: 'K' :: '_' ::
              (decDigits k ++ ['_', '_']) := by
          rw [ph_cons]
          rfl
        rw [e, ph_cons j] at hdrop
        simp only [List.cons_append] at hdrop
        exact absurd (pref_head1 hdrop) (by decide)
      · have e : (placeholder k).drop 5 =
            'L' :: 'I' :: 'N' :: 'K' :: '_' :: (decDigits k ++ ['_', '_']) := by
          rw [ph_cons]
          rfl
        rw [e, ph_cons j] at hdrop
        simp only [List.cons_append] at hdrop
        exact absurd (pref_head1 hdrop) (by decide)
      · have e : (placeholder k).drop 6 =
            'I' :: 'N' :: 'K' :: '_' :: (decDigits k ++ ['_', '_']) := by
          rw [ph_cons]
          rfl
        rw [e, ph_cons j] at hdrop
        simp only [List.cons_append] at hdrop
        exact absurd (pref_head1 hdrop) (by decide)
      · have e : (placeholder k).drop 7 =
            'N' :: 'K' :: '_' :: (decDigits k ++ ['_', '_']) := by
          rw [ph_cons]
          rfl
        rw [e, ph_cons j] at hdrop
        simp only [List.cons_append] at hdrop
        exact absurd (pref_head1 hdrop) (by decide)
      · have e : (placeholder k).drop 8 =
            'K' :: '_' :: (decDigits k ++ ['_', '_']) := by
          rw [ph_cons]
          rfl
        rw [e, ph_cons j] at hdrop
        simp only [List.cons_append] at hdrop
        exact absurd (pref_head1 hdrop) (by decide)
      · have e : (placeholder k).drop 9 = '_' :: (decDigits k ++ ['_', '_']) := by
          rw [ph_cons]
          rfl
        obtain ⟨hd, tl, hdk, hdig⟩ := decDigits_head k
        rw [e, hdk, ph_cons j] at hdrop
        simp only [List.cons_append] at hdrop
        exact digit_ne_us hdig (pref_head2 hdrop).2

/-- No occurrence of `placeholder k` can start inside a different
`placeholder j` when what follows `placeholder j` is a good tail. -/
theorem noStart_ph_ph (k j : Nat) (b : Str) (hkj : k ≠ j) (hb : GoodTail b) :
    startsIn (placeholder k) (placeholder j) b = false := by
  by_contra hcon
  obtain ⟨a₂, hne, hsuf, hp⟩ := (startsIn_iff _ _ _).mp (bool_eq_true_of_ne_false hcon)
  have hphj : placeholder j = phStem ++ (decDigits j ++ ['_', '_']) := by
    simp [placeholder]
  rw [hphj] at hsuf
  rcases suffix_append_cases hsuf with hsA | ⟨u₂, hu₂, rfl⟩
  · rcases suffix_append_cases hsA with hsA1 | ⟨d₂, hd₂, rfl⟩
    · have hmem : a₂ ∈ (['_', '_'] : Str).tails := (List.mem_tails _ _).mpr hsA1
      have htails : (['_', '_'] : Str).tails = [['_', '_'], ['_'], []] := by decide
      rw [htails] at hmem
      simp only [List.mem_cons, List.not_mem_nil, or_false] at hmem
      rcases hmem with rfl | rfl | rfl
      · exact no_ph_after_two k b hb (by simpa using hp)
      · exact no_ph_after_one k b hb (by simpa using hp)
      · exact hne rfl
    · cases d₂ with
      | nil => exact no_ph_after_two k b hb (by simpa using hp)
      | cons hd tl =>
        have hdig : isDigitC hd = true :=
          decDigits_digits j hd (hd₂.sublist.subset (List.mem_cons_self _ _))
        rw [ph_cons k] at hp
        simp only [List.cons_append] at hp
        exact digit_ne_us hdig (pref_head1 hp).symm
  · have hmem : u₂ ∈ phStem.tails := (List.mem_tails _ _).mpr hu₂
    have htails : phStem.tails =
        [['_', '_', 'E', 'V', 'E', 'L', 'I', 'N', 'K', '_'],
         ['_', 'E', 'V', 'E', 'L', 'I', 'N', 'K', '_'],
         ['E', 'V', 'E', 'L', 'I', 'N', 'K', '_'],
         ['V', 'E', 'L', 'I', 'N', 'K', '_'],
         ['E', 'L', 'I', 'N', 'K', '_'],
         ['L', 'I', 'N', 'K', '_'],
         ['I', 'N', 'K', '_'],
         ['N', 'K', '_'],
         ['K', '_'],
         ['_'],
         []] := by decide
    rw [htails] at hmem
    simp only [List.mem_cons, List.not_mem_nil, or_false] at hmem
    rcases hmem with rfl | rfl | rfl | rfl | rfl | rfl | rfl | rfl | rfl | rfl | rfl
    · rw [show (['_', '_', 'E', 'V', 'E', 'L', 'I', 'N', 'K', '_'] : Str) = phStem
        from rfl, ← hphj] at hp
      exact ph_not_pref_ph k j hkj b hp
    · rw [ph_cons k] at hp
      simp only [List.cons_append] at hp
      exact absurd (pref_head2 hp).2 (by decide)
    · rw [ph_cons k] at hp
      simp only [List.cons_append] at hp
      exact absurd (pref_head1 hp) (by decide)
    · rw [ph_cons k] at hp
      simp only [List.cons_append] at hp
      exact absurd (pref_head1 hp) (by decide)
    · rw [ph_cons k] at hp
      simp only [List.cons_append] at hp
      exact absurd (pref_head1 hp) (by decide)
    · rw [ph_cons k] at hp
      simp only [List.cons_append] at hp
      exact absurd (pref_head1 hp) (by decide)
    · rw [ph_cons k] at hp
      simp only [List.cons_append] at hp
      exact absurd (pref_head1 hp) (by decide)
    · rw [ph_cons k] at hp
      simp only [List.cons_append] at hp
      exact absurd (pref_head1 hp) (by decide)
    · rw [ph_cons k] at hp
      simp only [List.cons_append] at hp
      exact absurd (pref_head1 hp) (by decide)
    · obtain ⟨hd, tl, hdj, hdig⟩ := decDigits_head j
      rw [ph_cons k, hdj] at hp
      simp only [List.cons_append, List.singleton_append] at hp
      exact digit_ne_us hdig (pref_head2 hp).2.symm
    · obtain ⟨hd, tl, hdj, hdig⟩ := decDigits_head j
      rw [ph_cons k, hdj] at hp
      simp only [List.cons_append, List.nil_append] at hp
      exact digit_ne_us hdig (pref_head1 hp).symm

theorem occursIn_append (pat u v : Str) :
    occursIn pat (u ++ v) = (startsIn pat u v || occursIn pat v) := by
  induction u with
  | nil => simp [startsIn]
  | cons c u ih =>
    simp only [List.cons_append, occursIn, startsIn, List.append_eq, ih,
      Bool.or_assoc]

theorem text_infix_join : ∀ (segs : List Seg) (t : Str),
    Seg.text t ∈ segs → t <:+: segsJoin segs := by
  intro segs
  induction segs with
  | nil => intro t ht; cases ht
  | cons s rest ih =>
    intro t ht
    rcases List.mem_cons.mp ht with heq | hmem
    · cases s with
      | text t' =>
        injection heq with h
        subst h
        exact (List.prefix_append t (segsJoin rest)).isInfix
      | link l' => exact absurd heq (by simp)
    · cases s with
      | text t' =>
        exact (ih t hmem).trans (List.suffix_append t' (segsJoin rest)).isInfix
      | link l' =>
        exact (ih t hmem).trans (List.suffix_append l' (segsJoin rest)).isInfix

theorem segsWF_text_iff (t : Str) (rest : List Seg) :
    segsWF (Seg.text t :: rest) = true ↔
      (t ≠ [] ∧ headNotText rest = true ∧ segsWF rest = true) := by
  simp [segsWF, and_assoc]

theorem segsWF_link_iff (l : Str) (rest : List Seg) :
    segsWF (Seg.link l :: rest) = true ↔
      (headNotLink rest = true ∧ segsWF rest = true) := by
  simp [segsWF]

/-- Placeholders numbered `k` never occur in the rendering of a well-formed,
`linkWord`-free segment list whose placeholders are numbered from `j > k`. -/
theorem not_occursIn_ph_render : ∀ (segs : List Seg) (j k : Nat), k < j →
    segsWF segs = true →
    (∀ t, Seg.text t ∈ segs → occursIn linkWord t = false) →
    occursIn (placeholder k) (renderCleaned j segs) = false := by
  intro segs
  induction segs with
  | nil =>
    intro j k _ _ _
    rcases hph : placeholder k with _ | ⟨c0, r0⟩
    · exact absurd hph (ph_ne_nil k)
    · simp [renderCleaned, occursIn]
  | cons s rest ih =>
    intro j k hkj hwf htf
    cases s with
    | text t =>
      obtain ⟨hte, hnt, hwf'⟩ := (segsWF_text_iff t rest).mp hwf
      simp only [renderCleaned]
      rw [occursIn_append]
      have h1 : startsIn (placeholder k) t (renderCleaned j rest) = false := by
        apply noStart_free_ph
        · exact htf t (List.mem_cons_self _ _)
        · cases rest with
          | nil => exact Or.inl rfl
          | cons s2 r2 =>
            cases s2 with
            | text t2 => exact absurd hnt (by simp [headNotText])
            | link l2 => exact Or.inr ⟨j, renderCleaned (j + 1) r2, rfl⟩
      have h2 := ih j k hkj hwf' (fun t' ht' => htf t' (List.mem_cons_of_mem _ ht'))
      simp [h1, h2]
    | link l =>
      obtain ⟨hnl, hwf'⟩ := (segsWF_link_iff l rest).mp hwf
      simp only [renderCleaned]
      rw [occursIn_append]
      have hb : GoodTail (renderCleaned (j + 1) rest) := by
        cases rest with
        | nil => exact Or.inl rfl
        | cons s2 r2 =>
          cases s2 with
          | link l2 => exact absurd hnl (by simp [headNotLink])
          | text t2 =>
            obtain ⟨hte2, hnt2, -⟩ := (segsWF_text_iff t2 r2).mp hwf'
            refine Or.inr ⟨t2, renderCleaned (j + 1) r2, rfl, hte2, ?_, ?_⟩
            · exact htf t2 (by simp)
            · cases r2 with
              | nil => exact Or.inl rfl
              | cons s3 r3 =>
                cases s3 with
                | text t3 => exact absurd hnt2 (by simp [headNotText])
                | link l3 => exact Or.inr ⟨j + 1, renderCleaned (j + 2) r3, rfl⟩
      have h1 : startsIn (placeholder k) (placeholder j) (renderCleaned (j + 1) rest) = false :=
        noStart_ph_ph k j _ (by omega) hb
      have h2 := ih (j + 1) k (by omega) hwf'
        (fun t' ht' => htf t' (List.mem_cons_of_mem _ ht'))
      simp [h1, h2]

/-- The main restore induction: replacing the placeholders of a rendered
well-formed segment list, one after the other, restores the original
segment contents. `a` is the already-restored prefix. -/
theorem restore_fold : ∀ (segs : List Seg) (k : Nat) (a : Str),
    segsWF segs = true →
    occursIn linkWord (a ++ segsJoin segs) = false →
    List.foldl (fun s pr => replaceAll s pr.1 pr.2) (a ++ renderCleaned k segs)
      (collectTokens k segs) = a ++ segsJoin segs := by
  intro segs
  induction segs with
  | nil =>
    intro k a _ _
    simp [renderCleaned, collectTokens, segsJoin]
  | cons s rest ih =>
    intro k a hwf hfree
    cases s with
    | text t =>
      obtain ⟨-, -, hwf'⟩ := (segsWF_text_iff t rest).mp hwf
      simp only [renderCleaned, collectTokens, segsJoin] at *
      simp only [← List.append_assoc] at hfree ⊢
      exact ih k (a ++ t) hwf' hfree
    | link l =>
      obtain ⟨hnl, hwf'⟩ := (segsWF_link_iff l rest).mp hwf
      simp only [renderCleaned, collectTokens, segsJoin] at *
      rw [List.foldl_cons]
      have hfree_a : occursIn linkWord a = false :=
        not_occursIn_of_isInfix (List.prefix_append a _).isInfix hfree
      have htf : ∀ t', Seg.text t' ∈ rest → occursIn linkWord t' = false := by
        intro t' ht'
        refine not_occursIn_of_isInfix ?_ hfree
        have h1 : t' <:+: segsJoin rest := text_infix_join rest t' ht'
        exact (h1.trans (List.suffix_append l _).isInfix).trans
          (List.suffix_append a _).isInfix
      have hstep :
          replaceAll (a ++ (placeholder k ++ renderCleaned (k + 1) rest))
            (placeholder k) l = a ++ (l ++ renderCleaned (k + 1) rest) := by
        rw [replaceAll_append_of_not_startsIn _ _ _ _
          (noStart_free_ph a _ k hfree_a
            (Or.inr ⟨k, renderCleaned (k + 1) rest, rfl⟩))]
        rw [replaceAll_matches _ _ _ (ph_ne_nil k) (List.prefix_append _ _),
          List.drop_left]
        rw [replaceAll_of_not_occursIn _ _ _
          (not_occursIn_ph_render rest (k + 1) k (by omega) hwf' htf)]
      rw [hstep]
      simp only [← List.append_assoc] at hfree ⊢
      exact ih (k + 1) (a ++ l) hwf' hfree

/-- Round trip of the tokenizer on any message in which the letters
`EVELINK` never appear consecutively. -/
theorem tokenize_roundtrip_of_free (x : Str) (h : occursIn linkWord x = false) :
    restore (tokenize x).cleaned (tokenize x).tokens = x := by
  have main := restore_fold (scanSegs x) 1 [] (scanSegs_wf x)
    (by rw [List.nil_append, scanSegs_join]; exact h)
  rw [List.nil_append, List.nil_append, scanSegs_join] at main
  by_cases hall : (scanSegs x).all (fun s => !s.isLink) = true
  · have ht : tokenize x = ⟨x, x, []⟩ := by
      simp only [tokenize]
      rw [if_pos hall]
  -- with no detected links the token map is empty and restore is the identity
    rw [ht]
    rfl
  · have ht : tokenize x =
        ⟨x, renderCleaned 1 (scanSegs x), collectTokens 1 (scanSegs x)⟩ := by
      simp only [tokenize]
      rw [if_neg hall]
    rw [ht]
    exact main

/-! ### Glossary lemmas -/

theorem mem_sortTermsIns (p y : Str × Str) : ∀ l : List (Str × Str),
    (y ∈ sortTermsIns p l ↔ y = p ∨ y ∈ l) := by
  intro l
  induction l with
  | nil => simp [sortTermsIns]
  | cons q rest ih =>
    simp only [sortTermsIns]
    by_cases h : p.1.length < q.1.length
    · rw [if_pos h]
      simp only [List.mem_cons, ih]
      tauto
    · rw [if_neg h]
      simp only [List.mem_cons]

theorem sortTermsIns_perm (p : Str × Str) : ∀ l : List (Str × Str),
    List.Perm (sortTermsIns p l) (p :: l) := by
  intro l
  induction l with
  | nil => simp [sortTermsIns]
  | cons q rest ih =>
    simp only [sortTermsIns]
    by_cases h : p.1.length < q.1.length
    · rw [if_pos h]
      exact (ih.cons q).trans (List.Perm.swap p q rest)
    · rw [if_neg h]

theorem sortTermsDesc_perm : ∀ terms : List (Str × Str),
    List.Perm (sortTermsDesc terms) terms := by
  intro terms
  induction terms with
  | nil => exact List.Perm.refl []
  | cons t ts ih =>
    show List.Perm (sortTermsIns t (sortTermsDesc ts)) (t :: ts)
    exact (sortTermsIns_perm t (sortTermsDesc ts)).trans (ih.cons t)

theorem sortTermsIns_sorted (p : Str × Str) : ∀ l : List (Str × Str),
    l.Sorted (fun a b : Str × Str => b.1.length ≤ a.1.length) →
    (sortTermsIns p l).Sorted (fun a b : Str × Str => b.1.length ≤ a.1.length) := by
  intro l
  induction l with
  | nil => simp [sortTermsIns]
  | cons q rest ih =>
    intro hs
    rw [List.sorted_cons] at hs
    obtain ⟨hq, hrest⟩ := hs
    simp only [sortTermsIns]
    by_cases h : p.1.length < q.1.length
    · rw [if_pos h]
      rw [List.sorted_cons]
      refine ⟨?_, ih hrest⟩
      intro y hy
      rcases (mem_sortTermsIns p y rest).mp hy with rfl | hy'
      · omega
      · exact hq y hy'
    · rw [if_neg h]
      rw [List.sorted_cons]
      constructor
      · intro y hy
        rcases List.mem_cons.mp hy with rfl | hy'
        · omega
        · have := hq y hy'
          omega
      · rw [List.sorted_cons]
        exact ⟨hq, hrest⟩

theorem sortTermsDesc_sorted : ∀ terms : List (Str × Str),
    (sortTermsDesc terms).Sorted (fun a b : Str × Str => b.1.length ≤ a.1.length) := by
  intro terms
  induction terms with
  | nil => simp [sortTermsDesc]
  | cons t ts ih => exact sortTermsIns_sorted t (sortTermsDesc ts) ih

theorem subWBF_id : ∀ (fuel : Nat) (term rep : Str) (prev : Option Char) (s : Str),
    occursIn term s = false → subWBF fuel term rep prev s = s := by
  intro fuel
  induction fuel with
  | zero => intro term rep prev s _; rfl
  | succ fuel ih =>
    intro term rep prev s h
    cases s with
    | nil => rfl
    | cons c rest =>
      simp only [occursIn, Bool.or_eq_false_iff] at h
      simp only [subWBF, h.1, Bool.and_false, Bool.false_and, Bool.and_true]
      simp only [Bool.false_eq_true, if_false]
      rw [ih term rep (some c) rest h.2]

theorem glossStep_id (text : Str) (tr : Str × Str)
    (h : occursIn tr.1 text = false) : glossStep text tr = text := by
  unfold glossStep
  by_cases h1 : stripWS tr.1 = []
  · rw [if_pos h1]
  · rw [if_neg h1]
    by_cases h2 : isAlnumTerm tr.1 = true
    · rw [if_pos h2]
      exact subWBF_id _ _ _ _ _ h
    · rw [if_neg h2, h]
      simp

theorem foldl_glossStep_id : ∀ (l : List (Str × Str)) (text : Str),
    (∀ tr ∈ l, occursIn tr.1 text = false) → l.foldl glossStep text = text := by
  intro l
  induction l with
  | nil => intro text _; rfl
  | cons tr rest ih =>
    intro text h
    rw [List.foldl_cons, glossStep_id text tr (h tr (List.mem_cons_self _ _))]
    exact ih text (fun tr' htr' => h tr' (List.mem_cons_of_mem _ htr'))

/-- On text free of all the glossary's source terms, `replace_terms` only
performs the final whitespace normalization. -/
theorem replace_terms_of_no_terms (terms : List (Str × Str)) (text : Str)
    (h : ∀ tr ∈ terms, occursIn tr.1 text = false) :
    replace_terms terms text = normalizeWS text := by
  unfold replace_terms
  by_cases h0 : text = []
  · rw [if_pos h0, h0]
    rfl
  · rw [if_neg h0]
    rw [foldl_glossStep_id _ _
      (fun tr htr => h tr ((sortTermsDesc_perm terms).mem_iff.mp htr))]

theorem isHan_not_space {c : Char} (h : isHan c = true) : isPySpace c = false := by
  cases hs : isPySpace c with
  | false => rfl
  | true =>
    exfalso
    simp only [isHan, Bool.and_eq_true, decide_eq_true_eq] at h
    simp only [isPySpace, Bool.or_eq_true, Bool.and_eq_true, decide_eq_true_eq] at hs
    omega

theorem stripWS_ne_nil {text : Str} (hne : text ≠ [])
    (h : ∀ c ∈ text, isPySpace c = false) : stripWS text ≠ [] := by
  intro hcon
  unfold stripWS at hcon
  rw [List.reverse_eq_nil_iff, List.dropWhile_eq_nil_iff] at hcon
  cases htext : text with
  | nil => exact hne htext
  | cons c rest =>
    have hc : isPySpace c = false := h c (by rw [htext]; exact List.mem_cons_self _ _)
    have hdw : text.dropWhile isPySpace = text := by
      rw [htext]
      exact List.dropWhile_cons_of_neg (by simp [hc])
    rw [hdw, htext] at hcon
    have := hcon c (by simp)
    rw [hc] at this
    cases this

theorem allAscii_false_of_han {text : Str} {c : Char} (hc : c ∈ text)
    (h : isHan c = true) : allAscii text = false := by
  cases ha : allAscii text with
  | false => rfl
  | true =>
    exfalso
    simp only [allAscii, List.all_eq_true, decide_eq_true_eq] at ha
    have := ha c hc
    simp only [isHan, Bool.and_eq_true, decide_eq_true_eq] at h
    omega

theorem is_cjk_of_han {text : Str} {c : Char} (hc : c ∈ text)
    (h : isHan c = true) : is_cjk text = true := by
  simp only [is_cjk, List.any_eq_true]
  refine ⟨c, hc, ?_⟩
  simp only [isHan, Bool.and_eq_true, decide_eq_true_eq] at h
  simp only [isCJKchar, Bool.or_eq_true, Bool.and_eq_true, decide_eq_true_eq]
  omega

theorem hasHangul_false_of_han {text : Str}
    (h : ∀ c ∈ text, isHan c = true) : hasHangul text = false := by
  cases hh : hasHangul text with
  | false => rfl
  | true =>
    exfalso
    simp only [hasHangul, List.any_eq_true] at hh
    obtain ⟨c, hc, hhc⟩ := hh
    have := h c hc
    simp only [isHan, Bool.and_eq_true, decide_eq_true_eq] at this
    simp only [isHangulChar, Bool.and_eq_true, decide_eq_true_eq] at hhc
    omega

theorem hasKana_false_of_han {text : Str}
    (h : ∀ c ∈ text, isHan c = true) : hasKana text = false := by
  cases hh : hasKana text with
  | false => rfl
  | true =>
    exfalso
    simp only [hasKana, List.any_eq_true] at hh
    obtain ⟨c, hc, hhc⟩ := hh
    have := h c hc
    simp only [isHan, Bool.and_eq_true, decide_eq_true_eq] at this
    simp only [isKanaChar, Bool.and_eq_true, decide_eq_true_eq] at hhc
    omega

/-- On CJK text with neither Hangul nor Kana, the refinement always returns
a code starting with `zh` (either the forced `'zh'` or the detector's own
`zh`-prefixed answer). -/
theorem refineCJK_zh {text : Str} (d : Str)
    (hcjk : is_cjk text = true)
    (hhang : hasHangul text = false)
    (hkana : hasKana text = false) :
    "zh".toList <+: refineCJK text d := by
  have e1 : ("zh".toList : Str) = ['z', 'h'] := rfl
  have e2 : ("ja".toList : Str) = ['j', 'a'] := rfl
  have e3 : ("ko".toList : Str) = ['k', 'o'] := rfl
  unfold refineCJK
  rw [if_pos hcjk, e1, e2, e3]
  by_cases hko2 : d = ['k', 'o']
  · subst hko2
    rw [if_neg (by decide), if_pos (by simp [hhang])]
  · by_cases hja2 : d = ['j', 'a']
    · subst hja2
      rw [if_neg (by decide), if_neg (by simp), if_pos (by simp [hkana])]
    · by_cases hzp : (['z', 'h'] : Str).isPrefixOf d = true
      · rw [if_neg (by simp [hzp]), if_neg (by simp [hko2]), if_neg (by simp [hja2])]
        exact List.isPrefixOf_iff_prefix.mp hzp
      · have hzp' : (['z', 'h'] : Str).isPrefixOf d = false := by
          cases h : (['z', 'h'] : Str).isPrefixOf d with
          | false => rfl
          | true => exact absurd h hzp
        rw [if_pos (by simp [hzp', hja2, hko2])]

/-- Every possible statistical answer, and the failure case, leads to a
`zh`-prefixed code on nonempty pure-Han text. -/
theorem detect_language_pure_han (detectF : Str → Option Str) (text : Str)
    (hne : text ≠ []) (hhan : ∀ c ∈ text, isHan c = true) :
    "zh".toList <+: detect_language detectF text := by
  have hstrip := stripWS_ne_nil hne (fun c hc => isHan_not_space (hhan c hc))
  obtain ⟨c0, rest, rfl⟩ : ∃ c0 rest, text = c0 :: rest := by
    cases text with
    | nil => exact absurd rfl hne
    | cons c0 rest => exact ⟨c0, rest, rfl⟩
  have hasc : allAscii (c0 :: rest) = false :=
    allAscii_false_of_han (List.mem_cons_self _ _) (hhan c0 (List.mem_cons_self _ _))
  have hcjk : is_cjk (c0 :: rest) = true :=
    is_cjk_of_han (List.mem_cons_self _ _) (hhan c0 (List.mem_cons_self _ _))
  have hhang := hasHangul_false_of_han hhan
  have hkana := hasKana_false_of_han hhan
  unfold detect_language
  rw [if_neg hstrip, if_neg (by simp [hasc])]
  cases detectF (c0 :: rest) with
  | none =>
    rw [hasc]
    simp only [Bool.false_eq_true, if_false]
    exact refineCJK_zh _ hcjk hhang hkana
  | some d => exact refineCJK_zh d hcjk hhang hkana

/-- Short pure-ASCII non-blank strings short-circuit to `'en'` regardless of
the statistical detector. -/
theorem detect_language_short_ascii (detectF : Str → Option Str) (text : Str)
    (hlen : text.length < 4) (hascii : allAscii text = true)
    (hstrip : stripWS text ≠ []) :
    detect_language detectF text = "en".toList := by
  unfold detect_language
  rw [if_neg hstrip, if_pos (by simp [hascii, hlen])]

/-! ### Translator lemma -/

/-- When the provider call fails (returns `None` or an empty string), the
orchestrator returns the original message — not the glossary-substituted
text — with `success = false` and the provider's name. -/
theorem translate_message_failed (pt : Str → Option Str) (nameP : Str)
    (terms : List (Str × Str)) (msg : Str)
    (hne : stripWS msg ≠ [])
    (hfail : pt (replace_terms terms msg) = none ∨
      pt (replace_terms terms msg) = some []) :
    translate_message pt nameP terms msg = (msg, false, nameP) := by
  unfold translate_message
  rw [if_neg hne]
  rcases hfail with h | h
  · simp [h]
  · simp [h]

/-! ### Tailer lemmas -/

theorem seekToEnd_some (c : Str) (st : TailerState) :
    seekToEnd (some c) st = ⟨c.length, true⟩ := by
  unfold seekToEnd
  by_cases h : st.isOpen = true
  · rw [if_pos h]
    cases st
    simp_all [Option.getD]
  · rw [if_neg h]

theorem readNewLines_no_rotation (c : Str) (st : TailerState)
    (h : st.pos ≤ c.length) :
    readNewLines (some c) st =
      ((splitLinesKeep (c.drop st.pos)).map stripCRLF, ⟨c.length, true⟩) := by
  have hlt : ¬ c.length < st.pos := by omega
  cases st with
  | mk pos isOpen =>
    simp only at hlt
    cases isOpen <;> simp [readNewLines, checkRotation, hlt]

theorem readNewLines_rotation (c : Str) (st : TailerState)
    (h : c.length < st.pos) :
    readNewLines (some c) st =
      ((splitLinesKeep c).map stripCRLF, ⟨c.length, true⟩) := by
  cases st with
  | mk pos isOpen =>
    simp only at h
    cases isOpen <;> simp [readNewLines, checkRotation, h]

theorem splitLinesKeep_cons (c : Char) (rest : Str) :
    splitLinesKeep (c :: rest) =
      if c = '\n' then ['\n'] :: splitLinesKeep rest
      else
        match splitLinesKeep rest with
        | [] => [[c]]
        | l :: ls => (c :: l) :: ls := rfl

theorem splitLinesKeep_ne_nil (s : Str) (h : s ≠ []) : splitLinesKeep s ≠ [] := by
  cases s with
  | nil => exact absurd rfl h
  | cons c rest =>
    rw [splitLinesKeep_cons]
    by_cases hc : c = '\n'
    · simp [hc]
    · rw [if_neg hc]
      cases splitLinesKeep rest <;> simp

theorem splitLinesKeep_line (b X : Str) (hb : '\n' ∉ b) :
    splitLinesKeep (b ++ '\n' :: X) = (b ++ ['\n']) :: splitLinesKeep X := by
  induction b with
  | nil => simp [splitLinesKeep]
  | cons c b' ih =>
    have hc : c ≠ '\n' := fun hcon => hb (hcon ▸ List.mem_cons_self _ _)
    have hb' : '\n' ∉ b' := fun hcon => hb (List.mem_cons_of_mem _ hcon)
    rw [List.cons_append, splitLinesKeep_cons, if_neg hc, ih hb']
    simp

theorem splitLinesKeep_flat (bodies : List Str)
    (h : ∀ b ∈ bodies, '\n' ∉ b) :
    splitLinesKeep ((bodies.map (fun b => b ++ ['\n'])).flatten) =
      bodies.map (fun b => b ++ ['\n']) := by
  induction bodies with
  | nil => rfl
  | cons b rest ih =>
    simp only [List.map_cons, List.flatten_cons]
    have he : (b ++ ['\n']) ++ (rest.map (fun b => b ++ ['\n'])).flatten =
        b ++ '\n' :: (rest.map (fun b => b ++ ['\n'])).flatten := by
      simp
    rw [he, splitLinesKeep_line _ _ (h b (List.mem_cons_self _ _))]
    rw [ih (fun b' hb' => h b' (List.mem_cons_of_mem _ hb'))]

theorem dropWhile_eq_self_of_none {p : Char → Bool} {l : Str}
    (h : ∀ x ∈ l, p x = false) : l.dropWhile p = l := by
  cases l with
  | nil => rfl
  | cons c rest =>
    exact List.dropWhile_cons_of_neg (by simp [h c (List.mem_cons_self _ _)])

theorem stripCRLF_line (b : Str) (hn : '\n' ∉ b) (hr : '\r' ∉ b) :
    stripCRLF (b ++ ['\n']) = b := by
  unfold stripCRLF
  rw [List.reverse_append]
  have h1 : (['\n'] : Str).reverse = ['\n'] := rfl
  rw [h1]
  show (List.dropWhile _ ('\n' :: b.reverse)).reverse = b
  rw [List.dropWhile_cons_of_pos (by decide)]
  rw [dropWhile_eq_self_of_none (fun x hx => by
    rw [List.mem_reverse] at hx
    have hxn : x ≠ '\n' := fun hcon => hn (hcon ▸ hx)
    have hxr : x ≠ '\r' := fun hcon => hr (hcon ▸ hx)
    simp [hxn, hxr])]
  exact List.reverse_reverse b

theorem splitLinesKeep_append_ends_nl : ∀ (t X : Str),
    (t = [] ∨ t.getLast? = some '\n') →
    splitLinesKeep (t ++ X) = splitLinesKeep t ++ splitLinesKeep X := by
  intro t
  induction t with
  | nil => intro X _; rfl
  | cons c t' ih =>
    intro X h
    rcases h with h | h
    · cases h
    · cases t' with
      | nil =>
        have hc : c = '\n' := by simpa using h
        subst hc
        simp [splitLinesKeep]
      | cons c2 t2 =>
        have hlast : (c2 :: t2).getLast? = some '\n' := by
          rw [List.getLast?_cons_cons] at h
          exact h
        have hrec := ih X (Or.inr hlast)
        rw [List.cons_append, splitLinesKeep_cons, splitLinesKeep_cons c (c2 :: t2),
          hrec]
        by_cases hc : c = '\n'
        · rw [if_pos hc, if_pos hc]
          simp
        · rw [if_neg hc, if_neg hc]
          have hne : splitLinesKeep (c2 :: t2) ≠ [] :=
            splitLinesKeep_ne_nil _ (by simp)
          cases hsp : splitLinesKeep (c2 :: t2) with
          | nil => exact absurd hsp hne
          | cons l ls => simp

theorem dictInsert_lookup_self (k : Str) (v : FleetInfo) :
    ∀ d, dictLookup k (dictInsert k v d) = some v := by
  intro d
  induction d with
  | nil => simp [dictInsert, dictLookup]
  | cons p rest ih =>
    obtain ⟨k', v'⟩ := p
    simp only [dictInsert]
    by_cases h : k' = k
    · rw [if_pos h]
      simp [dictLookup, h]
    · rw [if_neg h]
      simp only [dictLookup, if_neg h]
      exact ih

theorem dictInsert_lookup_other (k key : Str) (v : FleetInfo) (hne : k ≠ key) :
    ∀ d, dictLookup key (dictInsert k v d) = dictLookup key d := by
  intro d
  induction d with
  | nil =>
    simp only [dictInsert, dictLookup]
    rw [if_neg hne]
  | cons p rest ih =>
    obtain ⟨k', v'⟩ := p
    simp only [dictInsert]
    by_cases h : k' = k
    · rw [if_pos h]
      simp only [dictLookup]
      by_cases h2 : k' = key
      · exact absurd (h ▸ h2 : k = key) (by rw [← h]; exact h ▸ hne)
      · rw [if_neg h2, if_neg h2]
    · rw [if_neg h]
      simp only [dictLookup]
      by_cases h2 : k' = key
      · rw [if_pos h2, if_pos h2]
      · rw [if_neg h2, if_neg h2]
        exact ih

theorem scanStep_lookup_other (parseTs : Str → Option Int) (now threshold : Int)
    (acc : List (Str × FleetInfo)) (e : FDirEntry) (key : Str)
    (hne : e.name ≠ key) :
    dictLookup key (scanStep parseTs now threshold acc e) = dictLookup key acc := by
  unfold scanStep
  split
  · split
    · rfl
    · split
      · rfl
      · split
        · rfl
        · exact dictInsert_lookup_other _ _ _ hne acc
  · rfl

theorem scanStep_stale (parseTs : Str → Option Int) (now threshold : Int)
    (acc : List (Str × FleetInfo)) (e : FDirEntry)
    (hstale : now - e.mtime > threshold) :
    scanStep parseTs now threshold acc e = acc := by
  unfold scanStep
  by_cases h1 : ("Fleet_".toList.isPrefixOf e.name &&
      ".txt".toList.isSuffixOf e.name) = true
  · rw [if_pos h1, if_pos hstale]
  · rw [if_neg h1]

theorem scanStep_fresh (parseTs : Str → Option Int) (now threshold : Int)
    (acc : List (Str × FleetInfo)) (e : FDirEntry) (nm : Str)
    (hpre : "Fleet_".toList <+: e.name) (hsuf : ".txt".toList <:+ e.name)
    (hfresh : now - e.mtime ≤ threshold)
    (hnm : parse_listener_from_log e.lines = some nm) (hne : nm ≠ []) :
    scanStep parseTs now threshold acc e =
      dictInsert e.name (fleetInfoOf parseTs e nm) acc := by
  unfold scanStep
  rw [if_pos (by
    simp only [Bool.and_eq_true]
    exact ⟨List.isPrefixOf_iff_prefix.mpr hpre, List.isSuffixOf_iff_suffix.mpr hsuf⟩)]
  rw [if_neg (by omega), hnm]
  show (if nm = [] then acc
    else dictInsert e.name
      { fleet_id := e.name, listener_name := nm, log_path := e.name,
        log_mtime := e.mtime, created_time := (parseTs e.name).getD e.ctime,
        is_active := true } acc) =
    dictInsert e.name (fleetInfoOf parseTs e nm) acc
  rw [if_neg hne]
  rfl

theorem scan_fold_other (parseTs : Str → Option Int) (now threshold : Int)
    (key : Str) : ∀ (entries : List FDirEntry) (acc : List (Str × FleetInfo)),
    (∀ e' ∈ entries, e'.name ≠ key) →
    dictLookup key (entries.foldl (scanStep parseTs now threshold) acc) =
      dictLookup key acc := by
  intro entries
  induction entries with
  | nil => intro acc _; rfl
  | cons e0 rest ih =>
    intro acc h
    rw [List.foldl_cons]
    rw [ih _ (fun e' he' => h e' (List.mem_cons_of_mem _ he'))]
    exact scanStep_lookup_other _ _ _ _ _ _ (h e0 (List.mem_cons_self _ _))

theorem scan_fold_keep (parseTs : Str → Option Int) (now threshold : Int)
    (e : FDirEntry) (nm : Str)
    (hpre : "Fleet_".toList <+: e.name) (hsuf : ".txt".toList <:+ e.name)
    (hfresh : now - e.mtime ≤ threshold)
    (hnm : parse_listener_from_log e.lines = some nm) (hne : nm ≠ []) :
    ∀ (entries : List FDirEntry) (acc : List (Str × FleetInfo)),
    (∀ e' ∈ entries, e'.name = e.name → e' = e) →
    dictLookup e.name acc = some (fleetInfoOf parseTs e nm) →
    dictLookup e.name (entries.foldl (scanStep parseTs now threshold) acc) =
      some (fleetInfoOf parseTs e nm) := by
  intro entries
  induction entries with
  | nil => intro acc _ hacc; exact hacc
  | cons e0 rest ih =>
    intro acc huniq hacc
    rw [List.foldl_cons]
    by_cases h0 : e0.name = e.name
    · have he0 : e0 = e := huniq e0 (List.mem_cons_self _ _) h0
      subst he0
      rw [scanStep_fresh _ _ _ _ _ _ hpre hsuf hfresh hnm hne]
      exact ih _ (fun e' he' => huniq e' (List.mem_cons_of_mem _ he'))
        (dictInsert_lookup_self _ _ acc)
    · rw [← scanStep_lookup_other parseTs now threshold acc e0 e.name h0] at hacc
      exact ih _ (fun e' he' => huniq e' (List.mem_cons_of_mem _ he')) hacc

theorem scan_fresh_lookup (parseTs : Str → Option Int) (now threshold : Int)
    (e : FDirEntry) (nm : Str)
    (hpre : "Fleet_".toList <+: e.name) (hsuf : ".txt".toList <:+ e.name)
    (hfresh : now - e.mtime ≤ threshold)
    (hnm : parse_listener_from_log e.lines = some nm) (hne : nm ≠ []) :
    ∀ (entries : List FDirEntry) (acc : List (Str × FleetInfo)),
    e ∈ entries →
    (∀ e' ∈ entries, e'.name = e.name → e' = e) →
    dictLookup e.name (entries.foldl (scanStep parseTs now threshold) acc) =
      some (fleetInfoOf parseTs e nm) := by
  intro entries
  induction entries with
  | nil => intro acc he _; cases he
  | cons e0 rest ih =>
    intro acc he huniq
    rw [List.foldl_cons]
    rcases List.mem_cons.mp he with rfl | hmem
    · rw [scanStep_fresh _ _ _ _ _ _ hpre hsuf hfresh hnm hne]
      exact scan_fold_keep _ _ _ _ _ hpre hsuf hfresh hnm hne rest _
        (fun e' he' => huniq e' (List.mem_cons_of_mem _ he'))
        (dictInsert_lookup_self _ _ acc)
    · exact ih _ hmem (fun e' he' => huniq e' (List.mem_cons_of_mem _ he'))

theorem scan_stale_lookup (parseTs : Str → Option Int) (now threshold : Int)
    (e : FDirEntry) (hstale : now - e.mtime > threshold) :
    ∀ (entries : List FDirEntry) (acc : List (Str × FleetInfo)),
    (∀ e' ∈ entries, e'.name = e.name → e' = e) →
    dictLookup e.name (entries.foldl (scanStep parseTs now threshold) acc) =
      dictLookup e.name acc := by
  intro entries
  induction entries with
  | nil => intro acc _; rfl
  | cons e0 rest ih =>
    intro acc huniq
    rw [List.foldl_cons]
    by_cases h0 : e0.name = e.name
    · have he0 : e0 = e := huniq e0 (List.mem_cons_self _ _) h0
      subst he0
      rw [scanStep_stale _ _ _ _ _ hstale]
      exact ih _ (fun e' he' => huniq e' (List.mem_cons_of_mem _ he'))
    · rw [ih _ (fun e' he' => huniq e' (List.mem_cons_of_mem _ he'))]
      exact scanStep_lookup_other _ _ _ _ _ _ h0

/-! ## The claims -/

set_option maxRecDepth 10000

/-- Claim C1, as frozen, is false on the code: on provider failure
`translate_message` returns the original message, not the
glossary-substituted text.  With the one-term glossary 吉他→Jita and a
failing provider, the call on `"吉他"` returns `"吉他"`, while the
glossary-substituted text would be `"Jita"`. -/
theorem c1_counterexample :
    translate_message (fun _ => none) "Mock".toList
        [("吉他".toList, "Jita".toList)] "吉他".toList =
      ("吉他".toList, false, "Mock".toList) ∧
    replace_terms [("吉他".toList, "Jita".toList)] "吉他".toList ≠
      "吉他".toList := by
  decide

/-- Claim C1 (amended): for every message whose provider translate call
fails (returns nothing, or an empty string — Python's falsy check), and
whose stripped text is nonempty (otherwise the call short-circuits before
reaching the provider), `translate_message` returns the ORIGINAL message
text with success flag `false` and the active provider's name.  The
embedding is a total function, so no exception escapes this boundary. -/
theorem c1_translate_failure_returns_original
    (pt : Str → Option Str) (nameP : Str) (terms : List (Str × Str)) (msg : Str)
    (hne : stripWS msg ≠ [])
    (hfail : pt (replace_terms terms msg) = none ∨
      pt (replace_terms terms msg) = some []) :
    translate_message pt nameP terms msg = (msg, false, nameP) :=
  translate_message_failed pt nameP terms msg hne hfail

/-- Witness for C1 at the concrete failing provider and message `"吉他"`. -/
theorem c1_witness :
    stripWS "吉他".toList ≠ [] ∧
    translate_message (fun _ => none) "Mock".toList
        [("吉他".toList, "Jita".toList)] "吉他".toList =
      ("吉他".toList, false, "Mock".toList) :=
  ⟨by decide,
   c1_translate_failure_returns_original (fun _ => none) "Mock".toList
     [("吉他".toList, "Jita".toList)] "吉他".toList (by decide) (Or.inl rfl)⟩

/-- Claim C2, as frozen, is false on the code: the token round-trip law
fails for inputs that already contain placeholder text.  For
`x = "\x1A__EVELINK_1__"`, the cleaned text is `"__EVELINK_1____EVELINK_1__"`
and `restore`'s `str.replace` substitutes both occurrences, yielding
`"\x1A\x1A" ≠ x`. -/
theorem c2_counterexample :
    restore (tokenize "\x1A__EVELINK_1__".toList).cleaned
        (tokenize "\x1A__EVELINK_1__".toList).tokens ≠
      "\x1A__EVELINK_1__".toList := by
  decide

/-- Claim C2 (amended): for every input string in which the letter sequence
`EVELINK` (`linkWord`) never occurs — in particular any string free of
placeholder-like text — restoring the cleaned text produced by `tokenize`
with the token map of the same call yields exactly the input. -/
theorem c2_tokenize_restore_roundtrip (x : Str)
    (h : occursIn linkWord x = false) :
    restore (tokenize x).cleaned (tokenize x).tokens = x :=
  tokenize_roundtrip_of_free x h

/-- Witness for C2 on a concrete message with two link spans. -/
theorem c2_witness :
    occursIn linkWord "Fleet up \x1Ahostiles\x1A at gate".toList = false ∧
    restore (tokenize "Fleet up \x1Ahostiles\x1A at gate".toList).cleaned
        (tokenize "Fleet up \x1Ahostiles\x1A at gate".toList).tokens =
      "Fleet up \x1Ahostiles\x1A at gate".toList :=
  ⟨by decide, c2_tokenize_restore_roundtrip _ (by decide)⟩

/-- Claim C3, as frozen, is false on the code: after a truncation, one
appended line can make the file BIGGER than the remembered cursor again, in
which case `read_new_lines` detects nothing, does not re-read from the
start, and returns only the tail of the new line.  Concretely: cursor 3
(after reading `"ab\n"`), file truncated to empty and `"abcde\n"` appended
(size 6 ≥ 3): the call returns `["de"]` — not the appended line — and the
cursor is never reset to zero. -/
theorem c3_counterexample :
    (readNewLines (some "abcde\n".toList) ⟨3, true⟩).1 = ["de".toList] ∧
    "abcde".toList ∉ (readNewLines (some "abcde\n".toList) ⟨3, true⟩).1 := by
  decide

/-- Claim C3 (amended): the cursor is monotonic non-decreasing across all
operations as long as the file has not shrunk below it (`read_new_lines`,
`seek_to_end`; `_open` and `close` never move it); when a truncation is
detected (current size smaller than the remembered cursor) the rotation
check resets the cursor to zero; and after a truncation followed by one
appended line, PROVIDED the resulting file is still smaller than the
remembered cursor and the truncation cut at a line boundary, the next
`read_new_lines` call re-reads from the start, returns (at least) that new
line, and advances the cursor to the new end.  All operations are total
functions — none raises. -/
theorem c3_tailer_cursor (c : Str) (st : TailerState) :
    (st.pos ≤ c.length →
      st.pos ≤ (readNewLines (some c) st).2.pos ∧
      st.pos ≤ (seekToEnd (some c) st).pos) ∧
    (readNewLines none st).2.pos = st.pos ∧
    (tailerOpen (some c) st).pos = st.pos ∧
    (tailerOpen none st).pos = st.pos ∧
    (closeTailer st).pos = st.pos ∧
    (c.length < st.pos → (checkRotation c st).pos = 0) ∧
    (∀ t body, c = t ++ (body ++ ['\n']) → c.length < st.pos →
      (t = [] ∨ t.getLast? = some '\n') → '\n' ∉ body → '\r' ∉ body →
      body ∈ (readNewLines (some c) st).1 ∧
        (readNewLines (some c) st).2.pos = c.length) := by
  refine ⟨?_, rfl, rfl, rfl, rfl, ?_, ?_⟩
  · intro h
    rw [readNewLines_no_rotation c st h, seekToEnd_some c st]
    exact ⟨h, h⟩
  · intro h
    unfold checkRotation
    rw [if_pos h]
  · intro t body hc hlt hends hnl hnr
    subst hc
    rw [readNewLines_rotation _ st hlt]
    constructor
    · rw [splitLinesKeep_append_ends_nl t _ hends]
      have hline : splitLinesKeep (body ++ ['\n']) = [body ++ ['\n']] := by
        have := splitLinesKeep_line body [] hnl
        simpa using this
      rw [hline, List.map_append]
      apply List.mem_append_right
      simp [stripCRLF_line body hnl hnr]
    · rfl

/-- Witness for C3: monotonicity at cursor 3 on a six-character file, and
the truncation scenario at cursor 10 with the file truncated to empty and
the line `"xy"` appended. -/
theorem c3_witness :
    (3 : Nat) ≤ ("ab\ncd\n".toList : Str).length ∧
    3 ≤ (readNewLines (some "ab\ncd\n".toList) ⟨3, true⟩).2.pos ∧
    (("" : String).toList ++ ("xy".toList ++ ['\n'])).length < 10 ∧
    "xy".toList ∈
      (readNewLines (some (("" : String).toList ++ ("xy".toList ++ ['\n'])))
        ⟨10, true⟩).1 := by
  refine ⟨by decide, ?_, by decide, ?_⟩
  · exact ((c3_tailer_cursor "ab\ncd\n".toList ⟨3, true⟩).1 (by decide)).1
  · exact (((c3_tailer_cursor (("" : String).toList ++ ("xy".toList ++ ['\n']))
      ⟨10, true⟩).2.2.2.2.2.2) ("" : String).toList "xy".toList rfl (by decide)
      (Or.inl rfl) (by decide) (by decide)).1

/-- Claim C4, as frozen, is false on the code: `replace_terms` always ends
with whitespace normalization, so text free of all source terms is still
collapsed and trimmed.  With the one-term glossary 吉他→Jita (which does
not occur in `"a  b"`), the input `"a  b"` comes back as `"a b"`. -/
theorem c4_counterexample :
    (∀ tr ∈ [("吉他".toList, "Jita".toList)],
      occursIn tr.1 "a  b".toList = false) ∧
    replace_terms [("吉他".toList, "Jita".toList)] "a  b".toList ≠
      "a  b".toList := by
  decide

/-- Claim C4 (amended): on input text in which none of the glossary's source
terms occurs, `replace_terms` returns exactly the whitespace-normalized
text (split on whitespace runs, rejoined with single spaces); in particular
it returns the text unchanged whenever the text is already
whitespace-normal. -/
theorem c4_replace_terms_term_free (terms : List (Str × Str)) (text : Str)
    (h : ∀ tr ∈ terms, occursIn tr.1 text = false) :
    replace_terms terms text = normalizeWS text ∧
    (normalizeWS text = text → replace_terms terms text = text) :=
  ⟨replace_terms_of_no_terms terms text h,
   fun hn => (replace_terms_of_no_terms terms text h).trans hn⟩

/-- Witness for C4 with a term-free input. -/
theorem c4_witness :
    (∀ tr ∈ [("吉他".toList, "Jita".toList)],
      occursIn tr.1 "hello world".toList = false) ∧
    replace_terms [("吉他".toList, "Jita".toList)] "hello world".toList =
      normalizeWS "hello world".toList :=
  ⟨by decide,
   (c4_replace_terms_term_free [("吉他".toList, "Jita".toList)]
     "hello world".toList (by decide)).1⟩

/-- Claim C5, as frozen, is false on the code: the placeholders are named
`__EVELINK_k__` (tokenizer.py line 41), not `__LINK_k__`, so the cleaned
text differs from the one the claim states. -/
theorem c5_counterexample :
    (tokenize "Click \x1Ahere\x1A for info".toList).cleaned ≠
      "Click __LINK_1__here__LINK_2__ for info".toList := by
  decide

/-- Claim C5 (amended): tokenizing `"Click \x1Ahere\x1A for info"` yields
cleaned text `"Click __EVELINK_1__here__EVELINK_2__ for info"` with exactly
two entries in the token map, and restoring the cleaned text with that map
reproduces the original input exactly. -/
theorem c5_tokenizer_scenario :
    (tokenize "Click \x1Ahere\x1A for info".toList).cleaned =
      "Click __EVELINK_1__here__EVELINK_2__ for info".toList ∧
    (tokenize "Click \x1Ahere\x1A for info".toList).tokens.length = 2 ∧
    restore (tokenize "Click \x1Ahere\x1A for info".toList).cleaned
        (tokenize "Click \x1Ahere\x1A for info".toList).tokens =
      "Click \x1Ahere\x1A for info".toList := by
  decide

/-- Claim C6, as frozen, is false on the code: when the statistical detector
answers a `zh`-prefixed regional code (which is what `langdetect` actually
produces for Chinese), `detect_language` returns it unchanged — e.g.
`"zh-cn"`, not the exact code `"zh"`. -/
theorem c6_counterexample :
    detect_language (fun _ => some "zh-cn".toList) "刷怪".toList =
      "zh-cn".toList ∧
    "zh-cn".toList ≠ "zh".toList := by
  decide

/-- Claim C6 (amended): for every nonempty string of Han-script (CJK
ideograph) characters, `detect_language` returns a Han-script code — a code
equal to or starting with `"zh"` — for every possible answer of the
underlying statistical detector, including Korean, Japanese, any non-CJK
code, or failure. -/
theorem c6_pure_han_zh (detectF : Str → Option Str) (text : Str)
    (hne : text ≠ []) (hhan : ∀ c ∈ text, isHan c = true) :
    "zh".toList <+: detect_language detectF text :=
  detect_language_pure_han detectF text hne hhan

/-- Witness for C6: the pure-Han string `"刷怪"` with a detector that
claims Korean. -/
theorem c6_witness :
    ("刷怪".toList : Str) ≠ [] ∧ (∀ c ∈ "刷怪".toList, isHan c = true) ∧
    "zh".toList <+: detect_language (fun _ => some "ko".toList) "刷怪".toList :=
  ⟨by decide, by decide,
   c6_pure_han_zh (fun _ => some "ko".toList) "刷怪".toList (by decide) (by decide)⟩

/-- Claim C7, as frozen, is false on the code: a whitespace-only string is
shorter than 4 characters and pure ASCII, yet `detect_language` returns
`"unknown"` for it (the blank-input check precedes the short-ASCII
short-circuit). -/
theorem c7_counterexample :
    (" ".toList : Str).length < 4 ∧ allAscii " ".toList = true ∧
    detect_language (fun _ => none) " ".toList ≠ "en".toList := by
  decide

/-- Claim C7 (amended): every non-blank string shorter than 4 characters
that is pure ASCII is classified `"en"` for EVERY statistical detector —
i.e. without invoking it. -/
theorem c7_short_ascii_en (detectF : Str → Option Str) (text : Str)
    (hlen : text.length < 4) (hascii : allAscii text = true)
    (hstrip : stripWS text ≠ []) :
    detect_language detectF text = "en".toList :=
  detect_language_short_ascii detectF text hlen hascii hstrip

/-- Witness for C7 at `"x7"` with a detector that would answer `"so"`. -/
theorem c7_witness :
    ("x7".toList : Str).length < 4 ∧ allAscii "x7".toList = true ∧
    stripWS "x7".toList ≠ [] ∧
    detect_language (fun _ => some "so".toList) "x7".toList = "en".toList :=
  ⟨by decide, by decide, by decide,
   c7_short_ascii_en (fun _ => some "so".toList) "x7".toList (by decide)
     (by decide) (by decide)⟩

/-- Claim C8 (confirmed): after `seek_to_end`, if exactly the complete
lines `bodies` are appended before the next `read_new_lines` call, that
call returns exactly those lines, each stripped of its trailing line
terminator, and a subsequent call with no new writes returns an empty
list. -/
theorem c8_tailer_reads_appended_lines (c₀ : Str) (bodies : List Str)
    (st : TailerState)
    (h : ∀ b ∈ bodies, '\n' ∉ b ∧ '\r' ∉ b) :
    (readNewLines (some (c₀ ++ (bodies.map (fun b => b ++ ['\n'])).flatten))
        (seekToEnd (some c₀) st)).1 = bodies ∧
    (readNewLines (some (c₀ ++ (bodies.map (fun b => b ++ ['\n'])).flatten))
        (readNewLines (some (c₀ ++ (bodies.map (fun b => b ++ ['\n'])).flatten))
          (seekToEnd (some c₀) st)).2).1 = [] := by
  have hst := seekToEnd_some c₀ st
  have hr1 := readNewLines_no_rotation
    (c₀ ++ (bodies.map (fun b => b ++ ['\n'])).flatten) ⟨c₀.length, true⟩
    (by simp)
  rw [hst, hr1]
  constructor
  · rw [List.drop_left, splitLinesKeep_flat bodies (fun b hb => (h b hb).1),
      List.map_map]
    have hmap : ∀ b ∈ bodies, (stripCRLF ∘ fun b => b ++ ['\n']) b = id b :=
      fun b hb => stripCRLF_line b (h b hb).1 (h b hb).2
    rw [List.map_congr_left hmap, List.map_id]
  · have hr2 := readNewLines_no_rotation
      (c₀ ++ (bodies.map (fun b => b ++ ['\n'])).flatten)
      ⟨(c₀ ++ (bodies.map (fun b => b ++ ['\n'])).flatten).length, true⟩ le_rfl
    rw [hr2]
    show (splitLinesKeep (List.drop
        (c₀ ++ (bodies.map (fun b => b ++ ['\n'])).flatten).length
        (c₀ ++ (bodies.map (fun b => b ++ ['\n'])).flatten))).map stripCRLF =
      ([] : List Str)
    rw [List.drop_length]
    rfl

/-- Witness for C8: two lines appended after `seek_to_end` on `"a\n"`. -/
theorem c8_witness :
    (∀ b ∈ (["x".toList, "yz".toList] : List Str), '\n' ∉ b ∧ '\r' ∉ b) ∧
    (readNewLines
        (some ("a\n".toList ++
          (((["x".toList, "yz".toList] : List Str).map
            (fun b => b ++ ['\n'])).flatten)))
        (seekToEnd (some "a\n".toList) ⟨0, false⟩)).1 =
      ["x".toList, "yz".toList] :=
  ⟨by decide,
   (c8_tailer_reads_appended_lines "a\n".toList ["x".toList, "yz".toList]
     ⟨0, false⟩ (by decide)).1⟩

/-- Claim C9 (confirmed): in a directory scan, a group-channel source file
(valid `Fleet_*.txt` name, unique in the listing) whose age exceeds the
inactivity threshold is absent from the produced registry entirely, and one
within the threshold whose header yields a listener name is present, with
its activity flag true. -/
theorem c9_scan_registry (parseTs : Str → Option Int) (now threshold : Int)
    (entries : List FDirEntry) (e : FDirEntry)
    (huniq : ∀ e' ∈ entries, e'.name = e.name → e' = e)
    (hpre : "Fleet_".toList <+: e.name) (hsuf : ".txt".toList <:+ e.name) :
    (now - e.mtime > threshold →
      dictLookup e.name (scan_active_fleets parseTs now threshold entries) =
        none) ∧
    (now - e.mtime ≤ threshold → e ∈ entries →
      ∀ nm, parse_listener_from_log e.lines = some nm → nm ≠ [] →
        dictLookup e.name (scan_active_fleets parseTs now threshold entries) =
          some (fleetInfoOf parseTs e nm) ∧
        (fleetInfoOf parseTs e nm).is_active = true) := by
  constructor
  · intro hstale
    unfold scan_active_fleets
    rw [scan_stale_lookup parseTs now threshold e hstale entries [] huniq]
    rfl
  · intro hfresh he nm hnm hne
    refine ⟨?_, rfl⟩
    unfold scan_active_fleets
    exact scan_fresh_lookup parseTs now threshold e nm hpre hsuf hfresh hnm hne
      entries [] he huniq

/-- Witness for C9: one concrete fleet log entry, stale at time 10000 and
fresh with active flag at time 1000. -/
theorem c9_witness :
    dictLookup "Fleet_20251216_082457.txt".toList
      (scan_active_fleets (fun _ => none) 10000 1800
        [⟨"Fleet_20251216_082457.txt".toList, 500, 400,
          ["x Listener: Bob".toList]⟩]) = none ∧
    dictLookup "Fleet_20251216_082457.txt".toList
      (scan_active_fleets (fun _ => none) 1000 1800
        [⟨"Fleet_20251216_082457.txt".toList, 500, 400,
          ["x Listener: Bob".toList]⟩]) =
      some (fleetInfoOf (fun _ => none)
        ⟨"Fleet_20251216_082457.txt".toList, 500, 400,
          ["x Listener: Bob".toList]⟩ "Bob".toList) := by
  constructor
  · exact (c9_scan_registry (fun _ => none) 10000 1800
      [⟨"Fleet_20251216_082457.txt".toList, 500, 400, ["x Listener: Bob".toList]⟩]
      ⟨"Fleet_20251216_082457.txt".toList, 500, 400, ["x Listener: Bob".toList]⟩
      (by decide) (by decide) (by decide)).1 (by decide)
  · exact ((c9_scan_registry (fun _ => none) 1000 1800
      [⟨"Fleet_20251216_082457.txt".toList, 500, 400, ["x Listener: Bob".toList]⟩]
      ⟨"Fleet_20251216_082457.txt".toList, 500, 400, ["x Listener: Bob".toList]⟩
      (by decide) (by decide) (by decide)).2 (by decide) (by decide)
      "Bob".toList (by decide) (by decide)).1

/-- Claim C10 (confirmed): the glossary's substitution table is iterated in
descending key length (the sort used by `__init__` is a length-descending
stable sort: the result is sorted that way and is a permutation of the
table), so a longer term wins over its substrings; in particular the
hardcoded fallback glossary applied to `"吉他收脑插"` yields output
containing both `"Jita"` (from 吉他) and `"WTB"` (from 收). -/
theorem c10_longest_match_first (terms : List (Str × Str)) :
    (sortTermsDesc terms).Sorted (fun a b : Str × Str => b.1.length ≤ a.1.length) ∧
    List.Perm (sortTermsDesc terms) terms ∧
    occursIn "Jita".toList
      (replace_terms hardcodedFallback "吉他收脑插".toList) = true ∧
    occursIn "WTB".toList
      (replace_terms hardcodedFallback "吉他收脑插".toList) = true := by
  refine ⟨sortTermsDesc_sorted terms, sortTermsDesc_perm terms, ?_, ?_⟩ <;> decide
